import Mathlib

set_option maxHeartbeats 1000000

/-!
Shallow embedding of `mdtoc/main.py` (scottfrazer/mdtoc).

Strings are modelled as `List Char`.  Python `re` semantics are embedded
concretely for the three fixed patterns the program uses (`TOC_PAT`,
`HEADER_PAT`, `STRIP_CANDIDATE_PAT`, `MD_LINK_PAT`): each regex is small
enough that its backtracking behaviour on every input is a deterministic
string computation, which is what is written below.  Character classes
(`\s`, `\w`) follow Python's semantics on the ASCII range (plus the
common Unicode whitespace code points for `\s`); `str.lower` is modelled
by `Char.toLower`, its ASCII fragment, as every concrete document in this
development is ASCII.
-/

namespace Mdtoc

/-- Python's `\s` character class (`re` whitespace): ASCII whitespace
`\t \n \v \f \r`, space, the file separators `\x1c`–`\x1f`, and the
Unicode space code points. -/
def isPySpace (c : Char) : Bool :=
  let n := c.toNat
  n = 0x20 || (0x9 ≤ n && n ≤ 0xd) || (0x1c ≤ n && n ≤ 0x1f) ||
  n = 0x85 || n = 0xa0 || n = 0x1680 || (0x2000 ≤ n && n ≤ 0x200a) ||
  n = 0x2028 || n = 0x2029 || n = 0x202f || n = 0x205f || n = 0x3000

/-- Python's `\w` character class, ASCII fragment: alphanumerics and `_`. -/
def isPyWord (c : Char) : Bool :=
  c.isAlphanum || c = '_'

/-- The horizontal-whitespace class `[ \t]` of `TOC_PAT`. -/
def ht (c : Char) : Bool :=
  c = ' ' || c = '\t'

/-- The class `[ \t#]` of `STRIP_CANDIDATE_PAT`. -/
def isStripChar (c : Char) : Bool :=
  c = ' ' || c = '\t' || c = '#'

/-- `STRIP_CANDIDATE_PAT.sub("", ·)` on a string with no trailing newline:
`re.sub` with pattern `(?<!\\)[ \t#]+$|^[ \t#]+` (no `re.M`).
If the whole string is made of `[ \t#]` the first alternative eats it all
at position 0 (the look-behind is vacuous there).  Otherwise the second
alternative removes the leading run, and the first alternative then
removes the maximal trailing run — shifted right by one character when
the character before that run is a backslash (the negative look-behind). -/
def pyStripCore (s : List Char) : List Char :=
  if s.all isStripChar then []
  else
    let rest := s.drop (s.takeWhile isStripChar).length
    let runLen := (rest.reverse.takeWhile isStripChar).length
    let q := rest.length - runLen
    if runLen = 0 then rest
    else if rest.get? (q - 1) = some '\\' then rest.take (q + 1)
    else rest.take q

/-- `_strip` in main.py: `STRIP_CANDIDATE_PAT.sub("", x)`.  Without `re.M`
the `$` anchor also matches just before a newline that ends the string, so
a final `'\n'` is transparent to the trailing-run alternative. -/
def pyStrip (s : List Char) : List Char :=
  match s.getLast? with
  | some c => if c = '\n' then pyStripCore s.dropLast ++ ['\n'] else pyStripCore s
  | none => []

/-- `re.sub(r"\s+", "-", ·)`, written with an in-run flag so that the
recursion is structural: a hyphen is emitted at the first character of
every maximal whitespace run. -/
def collapseWsAux : Bool → List Char → List Char
  | _, [] => []
  | inRun, c :: rest =>
    if isPySpace c then
      if inRun then collapseWsAux true rest else '-' :: collapseWsAux true rest
    else c :: collapseWsAux false rest

/-- `re.sub(r"\s+", "-", ·)`: every maximal whitespace run becomes one hyphen. -/
def collapseWs (s : List Char) : List Char :=
  collapseWsAux false s

/-- The intermediate value `res` of `as_link` in main.py before the
trailing-hyphen fix-up: lower-case, strip, collapse whitespace to hyphens,
then delete every character outside `[-\w\s]`. -/
def asLinkRes (x : List Char) : List Char :=
  (collapseWs (pyStrip (x.map Char.toLower))).filter
    (fun c => c = '-' || isPyWord c || isPySpace c)

/-- `as_link` in main.py.  `res.endswith("--")` triggers
`res.strip("-") + "-"`: note that Python's `str.strip` removes the hyphen
run at BOTH ends, not only the trailing one. -/
def as_link (x : List Char) : List Char :=
  let res := asLinkRes x
  if res.reverse.take 2 = ['-', '-'] then
    (((res.dropWhile (· = '-')).reverse.dropWhile (· = '-')).reverse) ++ ['-']
  else res

/-- `escape` in main.py: `x.replace("[", "\\[").replace("]", "\\]")`. -/
def escape (x : List Char) : List Char :=
  x.flatMap fun c =>
    if c = '[' then ['\\', '[']
    else if c = ']' then ['\\', ']']
    else [c]

/-- One line matched against `HEADER_PAT = ^\s{,3}(#{1,6})\s+(.*)`
(`re.match`, so anchored at the start).  The pattern matches exactly when
the maximal leading whitespace run has length at most 3, is followed by a
run of 1–6 `#`, and the character after the `#`-run (which exists) is
whitespace; the greedy `\s+` then eats the whole whitespace run and `(.*)`
is the remainder of the line. -/
def headerLine (l : List Char) : Option (Nat × List Char) :=
  let k := (l.takeWhile isPySpace).length
  if k ≤ 3 then
    let afterWs := l.drop k
    let m := (afterWs.takeWhile (· = '#')).length
    if 1 ≤ m && m ≤ 6 then
      let afterHash := afterWs.drop m
      let w := (afterHash.takeWhile isPySpace).length
      if 1 ≤ w then some (m, afterHash.drop w) else none
    else none
  else none

/-- Python `str.split("\n")`. -/
def splitNL : List Char → List (List Char)
  | [] => [[]]
  | '\n' :: rest => [] :: splitNL rest
  | c :: rest =>
    match splitNL rest with
    | [] => [[c]]
    | l :: ls => (c :: l) :: ls

/-- `line.startswith("```")`. -/
def lineIsFence (l : List Char) : Bool :=
  ['`', '`', '`'].isPrefixOf l

/-- The loop body of `headers` in main.py: the fence flag is toggled by a
line starting with three backticks BEFORE the skip test, lines are
skipped while the flag is set, and surviving lines are matched against
`HEADER_PAT`. -/
def headersAux : Bool → List (List Char) → List (Nat × List Char)
  | _, [] => []
  | fence, l :: rest =>
    let fence' := if lineIsFence l then !fence else fence
    if fence' then headersAux fence' rest
    else
      match headerLine l with
      | some h => h :: headersAux fence' rest
      | none => headersAux fence' rest

/-- `headers` in main.py, as the list of `(level, text)` pairs it yields. -/
def headers (md : List Char) : List (Nat × List Char) :=
  headersAux false (splitNL md)

/-- `n_seen[link]` for the `collections.defaultdict(int)` of `toc`,
modelled as an association list with the most recent binding first. -/
def lookupCount (m : List (List Char × Nat)) (k : List Char) : Nat :=
  match m with
  | [] => 0
  | (k', v) :: rest => if k' = k then v else lookupCount rest k

/-- `n_seen[link] += 1`. -/
def bump (m : List (List Char × Nat)) (k : List Char) : List (List Char × Nat) :=
  (k, lookupCount m k + 1) :: m

/-- `str(n)` for a natural number. -/
def natStr (n : Nat) : List Char :=
  Nat.toDigits 10 n

/-- `"  " * (level - 1)`. -/
def indentOf (level : Nat) : List Char :=
  (List.replicate (level - 1) [' ', ' ']).flatten

/-- One formatted TOC bullet line,
`"{spaces}* [{header}](#{link})"` with `header = escape(_strip(header))`. -/
def tocLine (level : Nat) (header link : List Char) : List Char :=
  indentOf level ++ "* [".toList ++ escape (pyStrip header) ++ "](#".toList ++ link ++ [')']

/-- The loop of `toc` in main.py, carrying the `n_seen` mapping: the first
occurrence of a base link is used unmodified and every occurrence bumps
the counter; the n-th repeat gets suffix `-n`. -/
def tocAux : List (Nat × List Char) → List (List Char × Nat) → List (List Char)
  | [], _ => []
  | (level, header) :: rest, seen =>
    let link := as_link header
    let n := lookupCount seen link
    let link' := if n > 0 then link ++ '-' :: natStr n else link
    tocLine level header link' :: tocAux rest (bump seen link)

/-- `"\n".join(lines)`. -/
def joinNL (ls : List (List Char)) : List Char :=
  (ls.intersperse ['\n']).flatten

/-- `toc` in main.py: format the headers of a Markdown string as an
indented bullet list with collision-suffixed anchors. -/
def toc (md : List Char) : List Char :=
  joinNL (tocAux (headers md) [])

/-! ## The document patcher: `TOC_PAT`, `re.subn`, `modify_and_write` -/

/-- The literal start delimiter. -/
def startTag : List Char := "<!---toc start-->".toList

/-- The literal end delimiter. -/
def endTag : List Char := "<!---toc end-->".toList

/-- Position of the leftmost occurrence of `pat` in `s`, if any. -/
def firstOcc (pat : List Char) : List Char → Option Nat
  | [] => if pat.isEmpty then some 0 else none
  | c :: rest =>
    if pat.isPrefixOf (c :: rest) then some 0
    else (firstOcc pat rest).map (· + 1)

/-- `pat` occurs in `s` at position `p`. -/
def occAt (pat s : List Char) (p : Nat) : Bool :=
  pat.isPrefixOf (s.drop p)

/-- Length of the maximal `[ \t]` run ending just before position `i` of `s`. -/
def backRun (s : List Char) (i : Nat) : Nat :=
  ((s.take i).reverse.takeWhile ht).length

/-- Length of the maximal `[ \t]` run starting at position `i` of `s`. -/
def fwdRun (s : List Char) (i : Nat) : Nat :=
  ((s.drop i).takeWhile ht).length

/-- The span data of a `TOC_PAT` match: the match runs over `[l, r)`, the
start delimiter sits at `i`, the end delimiter at `j`; `[l, i)` and
`[j + |endTag|, r)` are the horizontal whitespace absorbed by the two
`[ \t]*` parts of the pattern. -/
structure TocMatch where
  l : Nat
  i : Nat
  j : Nat
  r : Nat
deriving DecidableEq

/-- The leftmost match of
`TOC_PAT = [ \t]*<!---toc start-->(.*?)<!---toc end-->[ \t]*`
(with `re.DOTALL`): the match needs the first start-delimiter occurrence
(no later occurrence can match if the first one does not, since the
non-greedy group accepts anything), the group then runs to the first
end-delimiter occurrence after it, and the two greedy `[ \t]*` absorb the
maximal adjacent horizontal-whitespace runs. -/
def findMatch (s : List Char) : Option TocMatch :=
  match firstOcc startTag s with
  | none => none
  | some i =>
    match firstOcc endTag (s.drop (i + startTag.length)) with
    | none => none
    | some d =>
      let j := i + startTag.length + d
      some ⟨i - backRun s i, i, j, j + endTag.length + fwdRun s (j + endTag.length)⟩

/-- One parsed item of a `re` replacement template: a literal character or
a group reference. -/
inductive TItem where
  | lit (c : Char)
  | grp (n : Nat)
deriving DecidableEq

/-- Octal digit test for replacement-template escapes. -/
def isOctDigit (c : Char) : Bool :=
  '0' ≤ c && c ≤ '7'

/-- Numeric value of a decimal digit character. -/
def digitVal (c : Char) : Nat :=
  c.toNat - '0'.toNat

/-- Value of a decimal digit string. -/
def digitsVal (ds : List Char) : Nat :=
  ds.foldl (fun a c => a * 10 + digitVal c) 0

/-- Value of an octal digit string. -/
def octVal (ds : List Char) : Nat :=
  ds.foldl (fun a c => a * 8 + digitVal c) 0

/-- CPython's `re._parser.parse_template`, for a pattern with exactly one
capture group (`TOC_PAT`), fuel-recursive; `none` models `re.error`.
After a backslash: `a b f n r t v` are control-character escapes; `\0` is
an octal escape taking up to two more octal digits; `\ddd` with three
octal digits is an octal escape, an error when its value exceeds `0o377`;
otherwise one or two decimal digits are
a group reference, valid only for groups 0 and 1 here; `\g<number>`
likewise; any other ASCII letter is a bad escape; every other escaped
character stays as a literal backslash followed by that character; a
trailing lone backslash is a bad escape. -/
def parseTemplateF : Nat → List Char → Option (List TItem)
  | 0, _ => none
  | _ + 1, [] => some []
  | fuel + 1, '\\' :: rest =>
    match rest with
    | [] => none
    | 'g' :: rest1 =>
      match rest1 with
      | '<' :: rest2 =>
        let name := rest2.takeWhile (· ≠ '>')
        match rest2.drop name.length with
        | '>' :: rest3 =>
          if name ≠ [] && name.all Char.isDigit && digitsVal name ≤ 1 then
            (parseTemplateF fuel rest3).map (TItem.grp (digitsVal name) :: ·)
          else none
        | _ => none
      | _ => none
    | c :: rest1 =>
      if c = 'a' then (parseTemplateF fuel rest1).map (TItem.lit '\x07' :: ·)
      else if c = 'b' then (parseTemplateF fuel rest1).map (TItem.lit '\x08' :: ·)
      else if c = 'f' then (parseTemplateF fuel rest1).map (TItem.lit '\x0c' :: ·)
      else if c = 'n' then (parseTemplateF fuel rest1).map (TItem.lit '\n' :: ·)
      else if c = 'r' then (parseTemplateF fuel rest1).map (TItem.lit '\r' :: ·)
      else if c = 't' then (parseTemplateF fuel rest1).map (TItem.lit '\t' :: ·)
      else if c = 'v' then (parseTemplateF fuel rest1).map (TItem.lit '\x0b' :: ·)
      else if c = '0' then
        let ds := (rest1.takeWhile isOctDigit).take 2
        (parseTemplateF fuel (rest1.drop ds.length)).map
          (TItem.lit (Char.ofNat (octVal ds % 256)) :: ·)
      else if c.isDigit then
        match rest1 with
        | d2 :: rest2 =>
          if d2.isDigit then
            match rest2 with
            | d3 :: rest3 =>
              if isOctDigit c && isOctDigit d2 && isOctDigit d3 then
                if octVal [c, d2, d3] ≤ 255 then
                  (parseTemplateF fuel rest3).map
                    (TItem.lit (Char.ofNat (octVal [c, d2, d3])) :: ·)
                else none
              else if digitsVal [c, d2] ≤ 1 then
                (parseTemplateF fuel rest2).map (TItem.grp (digitsVal [c, d2]) :: ·)
              else none
            | [] =>
              if digitsVal [c, d2] ≤ 1 then some [TItem.grp (digitsVal [c, d2])]
              else none
          else if digitVal c ≤ 1 then
            (parseTemplateF fuel rest1).map (TItem.grp (digitVal c) :: ·)
          else none
        | [] =>
          if digitVal c ≤ 1 then some [TItem.grp (digitVal c)]
          else none
      else if c.isAlpha then none
      else (parseTemplateF fuel rest1).map (fun t => TItem.lit '\\' :: TItem.lit c :: t)
  | fuel + 1, c :: rest => (parseTemplateF fuel rest).map (TItem.lit c :: ·)

/-- `parse_template` with enough fuel for its input. -/
def parseTemplate (r : List Char) : Option (List TItem) :=
  parseTemplateF (r.length + 1) r

/-- Expand a parsed template at one match: group 0 is the whole matched
span, group 1 is `TOC_PAT`'s only capture group. -/
def expandT (tpl : List TItem) (whole grp1 : List Char) : List Char :=
  tpl.flatMap fun t =>
    match t with
    | .lit c => [c]
    | .grp 0 => whole
    | .grp _ => grp1

/-- The match-replace loop of `TOC_PAT.subn`, fuel-recursive: replace the
leftmost match, then continue after it; return the new text and the
number of replacements. -/
def subnF (tpl : List TItem) : Nat → List Char → List Char × Nat
  | 0, s => (s, 0)
  | fuel + 1, s =>
    match findMatch s with
    | none => (s, 0)
    | some m =>
      let repl := expandT tpl ((s.take m.r).drop m.l) ((s.take m.j).drop (m.i + startTag.length))
      let rest := subnF tpl fuel (s.drop m.r)
      (s.take m.l ++ repl ++ rest.1, rest.2 + 1)

/-- `TOC_PAT.subn` with a parsed template: every match advances the scan
position by at least one character, so `s.length` is enough fuel. -/
def tocSubn (tpl : List TItem) (s : List Char) : List Char × Nat :=
  subnF tpl s.length s

/-- The number of `TOC_PAT` matches in `s` (the `replacements` count of
`subn`, which does not depend on the replacement template). -/
def countMatches (s : List Char) : Nat :=
  (tocSubn [] s).2

/-- The replacement string
`"<!---toc start-->\n\n{}\n\n<!---toc end-->".format(t)`. -/
def mkTemplate (t : List Char) : List Char :=
  startTag ++ '\n' :: '\n' :: (t ++ '\n' :: '\n' :: endTag)

/-- Failure modes of the pure core of `modify_and_write`:
`missingTags` and `multipleTags` model the two `MarkdownError`
(the spec's `MalformedDocument`) raises; `badTemplate` models the
`re.error` that `re.subn` raises while compiling a replacement template
containing a bad escape or an invalid group reference. -/
inductive PatchErr where
  | missingTags
  | multipleTags
  | badTemplate
deriving DecidableEq

/-- `TOC_PAT.subn(repl, s)` including CPython's handling of the
replacement string: a replacement containing no backslash is used
literally; otherwise the template is parsed up front — raising
`re.error` (`none` here) on a malformed template even when the document
contains no match at all. -/
def pySubn (repl : List Char) (s : List Char) : Option (List Char × Nat) :=
  if repl.all (· ≠ '\\') then some (tocSubn (repl.map TItem.lit) s)
  else
    match parseTemplate repl with
    | some tpl => some (tocSubn tpl s)
    | none => none

/-- The pure core of `modify_and_write` in main.py: build the TOC from the
whole document, substitute it for every `TOC_PAT` match, then fail when
the number of replacements is zero (`missing toc start/end tags`) or
more than one (`multiple toc start/end tag pairs`); on success the new
document text is written back (here: returned). -/
def modify_and_write (md : List Char) : Except PatchErr (List Char) :=
  match pySubn (mkTemplate (toc md)) md with
  | none => .error .badTemplate
  | some (newMarkdown, replacements) =>
    if replacements = 0 then .error .missingTags
    else if replacements > 1 then .error .multipleTags
    else .ok newMarkdown

instance : DecidableEq (Except PatchErr (List Char)) := fun x y =>
  match x, y with
  | .ok a, .ok b =>
    if h : a = b then isTrue (by rw [h]) else isFalse (fun hh => by cases hh; exact h rfl)
  | .error a, .error b =>
    if h : a = b then isTrue (by rw [h]) else isFalse (fun hh => by cases hh; exact h rfl)
  | .ok _, .error _ => isFalse (by intro hh; cases hh)
  | .error _, .ok _ => isFalse (by intro hh; cases hh)


/-! ## The link extractor: `MD_LINK_PAT`, `get_links` -/

/-- The URL-body character class `[^\s)(]`. -/
def isUrlChar (c : Char) : Bool :=
  !(isPySpace c || c = '(' || c = ')')

/-- The greedy star `(([^\s)(]|\([^\s)(]*\))*)` of `MD_LINK_PAT`,
fuel-recursive: consume plain URL characters and single-level balanced
parenthesised groups as long as possible.  Backtracking never helps this
pattern: giving an atom back always exposes a character (a non-parenthesis
or an opening parenthesis) on which the following `\)` fails, so the
greedy result is the only candidate.  Returns the consumed body and the
remaining characters. -/
def linkBodyF : Nat → List Char → List Char × List Char
  | 0, s => ([], s)
  | _ + 1, [] => ([], [])
  | fuel + 1, c :: rest =>
    if c = '(' then
      let inner := rest.takeWhile isUrlChar
      let rem := rest.drop inner.length
      if rem.head? = some ')' then
        let p := linkBodyF fuel rem.tail
        ('(' :: (inner ++ ')' :: p.1), p.2)
      else ([], c :: rest)
    else if isUrlChar c then
      let p := linkBodyF fuel rest
      (c :: p.1, p.2)
    else ([], c :: rest)

/-- The URL-body star with enough fuel for its input. -/
def linkBody (s : List Char) : List Char × List Char :=
  linkBodyF s.length s

/-- `MD_LINK_PAT` anchored at the current position: `[`, a nonempty
bracket-free label, `]`, `(`, the URL body, `)`.  Returns the label, the
URL and the total number of characters matched. -/
def tryLink (s : List Char) : Option (List Char × List Char × Nat) :=
  if s.head? = some '[' then
    let rest := s.tail
    let label := rest.takeWhile (fun c => !(c = '[' || c = ']'))
    if label.isEmpty then none
    else
      let after := rest.drop label.length
      if after.take 2 = [']', '('] then
        let p := linkBody (after.drop 2)
        if p.2.head? = some ')' then some (label, p.1, label.length + p.1.length + 4)
        else none
      else none
  else none

/-- `MD_LINK_PAT.finditer`: scan left to right, yield non-overlapping
matches and continue after each one; the recorded offset is `m.start(1)`,
one past the opening bracket. -/
def getLinksF : Nat → List Char → Nat → List (List Char × List Char × Nat)
  | 0, _, _ => []
  | _ + 1, [], _ => []
  | fuel + 1, c :: rest, pos =>
    match tryLink (c :: rest) with
    | some (label, url, len) =>
      (label, url, pos + 1) :: getLinksF fuel ((c :: rest).drop len) (pos + len)
    | none => getLinksF fuel rest (pos + 1)

/-- The test `char in {"\r", "\n"}` of `line_col`. -/
def isNl (c : Char) : Bool :=
  c = '\r' || c = '\n'

/-- `line_col` in `get_links`: the 1-based line and column of `position`,
counting both `'\r'` and `'\n'` as line separators. -/
def lineCol (md : List Char) (position : Nat) : Nat × Nat :=
  (md.take position).foldl
    (fun lc ch => if isNl ch then (lc.1 + 1, 1) else (lc.1, lc.2 + 1))
    (1, 1)

/-- `get_links` in main.py: `(text, url, linenum, colnum)` for every link. -/
def get_links (md : List Char) : List (List Char × List Char × Nat × Nat) :=
  (getLinksF md.length md 0).map (fun e => (e.1, e.2.1, lineCol md e.2.2))


/-! ## Toolkit lemmas -/

theorem takeWhile_sat {p : Char → Bool} :
    ∀ (l : List Char) (k : Nat) (c : Char),
      k < (l.takeWhile p).length → l[k]? = some c → p c = true := by
  intro l
  induction l with
  | nil => intro k c h _; simp at h
  | cons a rest ih =>
    intro k c h hget
    rw [List.takeWhile_cons] at h
    by_cases hpa : p a
    · rw [if_pos hpa] at h
      cases k with
      | zero => simp at hget; subst hget; exact hpa
      | succ k =>
        simp only [List.length_cons, Nat.succ_lt_succ_iff] at h
        exact ih k c h (by simpa using hget)
    · rw [if_neg hpa] at h; simp at h

theorem takeWhile_stop {p : Char → Bool} :
    ∀ (l : List Char) (c : Char),
      l[(l.takeWhile p).length]? = some c → p c = false := by
  intro l
  induction l with
  | nil => intro c h; simp at h
  | cons a rest ih =>
    intro c h
    rw [List.takeWhile_cons] at h
    by_cases hpa : p a
    · rw [if_pos hpa] at h
      exact ih c (by simpa using h)
    · rw [if_neg hpa] at h
      simp at h; subst h
      simpa using hpa

theorem takeWhile_len_le (p : Char → Bool) (l : List Char) :
    (l.takeWhile p).length ≤ l.length :=
  (List.takeWhile_prefix p).length_le

theorem occAt_iff {pat s : List Char} {p : Nat} :
    occAt pat s p = true ↔ pat <+: s.drop p := by
  unfold occAt
  exact List.isPrefixOf_iff_prefix

theorem occAt_get {pat s : List Char} {p : Nat} (h : occAt pat s p = true) :
    ∀ k c, pat[k]? = some c → s[p + k]? = some c := by
  intro k c hk
  rcases occAt_iff.mp h with ⟨t, ht⟩
  have hlt : k < pat.length := (List.getElem?_eq_some_iff.mp hk).1
  have : (s.drop p)[k]? = some c := by
    rw [← ht, List.getElem?_append, if_pos hlt]
    exact hk
  rw [List.getElem?_drop] at this
  exact this

theorem occAt_len {pat s : List Char} {p : Nat} (hne : pat ≠ [])
    (h : occAt pat s p = true) : p + pat.length ≤ s.length := by
  have hle := (occAt_iff.mp h).length_le
  rw [List.length_drop] at hle
  have : 0 < pat.length := List.length_pos.mpr hne
  omega

theorem occAt_cons_succ (pat s : List Char) (c : Char) (p : Nat) :
    occAt pat (c :: s) (p + 1) = occAt pat s p := rfl

theorem occAt_drop {pat s : List Char} {d q : Nat} :
    occAt pat (s.drop d) q = occAt pat s (d + q) := by
  unfold occAt
  rw [List.drop_drop]

theorem firstOcc_some_occ {pat : List Char} :
    ∀ {s : List Char} {i : Nat}, firstOcc pat s = some i → occAt pat s i = true := by
  intro s
  induction s with
  | nil =>
    intro i h
    unfold firstOcc at h
    by_cases hp : pat.isEmpty
    · rw [if_pos hp] at h
      cases h
      simp [occAt, List.isEmpty_iff.mp hp]
    · rw [if_neg hp] at h; cases h
  | cons a rest ih =>
    intro i h
    unfold firstOcc at h
    by_cases hp : pat.isPrefixOf (a :: rest)
    · rw [if_pos hp] at h
      cases h
      exact hp
    · rw [if_neg hp] at h
      cases hfo : firstOcc pat rest with
      | none => rw [hfo] at h; cases h
      | some i' =>
        rw [hfo] at h
        simp at h
        subst h
        rw [occAt_cons_succ]
        exact ih hfo

theorem firstOcc_some_min {pat : List Char} :
    ∀ {s : List Char} {i : Nat}, firstOcc pat s = some i →
      ∀ p, p < i → occAt pat s p = false := by
  intro s
  induction s with
  | nil =>
    intro i h p hp
    unfold firstOcc at h
    by_cases hpe : pat.isEmpty
    · rw [if_pos hpe] at h; cases h; omega
    · rw [if_neg hpe] at h; cases h
  | cons a rest ih =>
    intro i h p hp
    unfold firstOcc at h
    by_cases hpre : pat.isPrefixOf (a :: rest)
    · rw [if_pos hpre] at h; cases h; omega
    · rw [if_neg hpre] at h
      cases hfo : firstOcc pat rest with
      | none => rw [hfo] at h; cases h
      | some i' =>
        rw [hfo] at h
        simp at h
        subst h
        cases p with
        | zero => exact Bool.eq_false_iff.mpr hpre
        | succ p =>
          rw [occAt_cons_succ]
          exact ih hfo p (by omega)

theorem firstOcc_none {pat : List Char} (hne : pat ≠ []) :
    ∀ {s : List Char}, firstOcc pat s = none → ∀ p, occAt pat s p = false := by
  intro s
  induction s with
  | nil =>
    intro _ p
    unfold occAt
    rw [List.drop_nil]
    cases pat with
    | nil => exact absurd rfl hne
    | cons a t => rfl
  | cons a rest ih =>
    intro h p
    unfold firstOcc at h
    by_cases hpre : pat.isPrefixOf (a :: rest)
    · rw [if_pos hpre] at h; cases h
    · rw [if_neg hpre] at h
      cases hfo : firstOcc pat rest with
      | none =>
        cases p with
        | zero => exact Bool.eq_false_iff.mpr hpre
        | succ p => rw [occAt_cons_succ]; exact ih hfo p
      | some i' => rw [hfo] at h; simp at h

theorem firstOcc_of_occ_min {pat : List Char} :
    ∀ {s : List Char} {i : Nat}, occAt pat s i = true →
      (∀ p, p < i → occAt pat s p = false) → firstOcc pat s = some i := by
  intro s
  induction s with
  | nil =>
    intro i h hmin
    unfold occAt at h
    rw [List.drop_nil] at h
    have hpe : pat.isEmpty := by
      cases pat with
      | nil => rfl
      | cons a t => simp [List.isPrefixOf] at h
    cases i with
    | zero => unfold firstOcc; rw [if_pos hpe]
    | succ i =>
      exfalso
      have := hmin 0 (by omega)
      unfold occAt at this
      rw [List.drop_nil] at this
      rw [this] at h
      cases h
  | cons a rest ih =>
    intro i h hmin
    unfold firstOcc
    cases i with
    | zero =>
      have h' : pat.isPrefixOf (a :: rest) = true := h
      rw [if_pos h']
    | succ i =>
      have h0 : occAt pat (a :: rest) 0 = false := hmin 0 (by omega)
      have hpre : ¬ pat.isPrefixOf (a :: rest) = true := by
        intro hc
        have : occAt pat (a :: rest) 0 = true := hc
        rw [this] at h0
        cases h0
      rw [if_neg hpre]
      rw [ih (by rw [← occAt_cons_succ pat rest a]; exact h)
        (fun p hp => by rw [← occAt_cons_succ pat rest a]; exact hmin (p + 1) (by omega))]
      rfl

theorem firstOcc_some_le {pat s : List Char} {i : Nat} (hne : pat ≠ [])
    (h : firstOcc pat s = some i) : i + pat.length ≤ s.length :=
  occAt_len hne (firstOcc_some_occ h)

/-! ## Structure of `findMatch` and `tocSubn` -/

theorem startTag_ne_nil : startTag ≠ [] := by decide

theorem endTag_ne_nil : endTag ≠ [] := by decide

theorem fwdRun_le (s : List Char) (i : Nat) : fwdRun s i ≤ s.length - i := by
  unfold fwdRun
  have := takeWhile_len_le ht (s.drop i)
  rwa [List.length_drop] at this

theorem backRun_le (s : List Char) (i : Nat) : backRun s i ≤ i := by
  unfold backRun
  have h1 := takeWhile_len_le ht (s.take i).reverse
  rw [List.length_reverse, List.length_take] at h1
  omega

theorem findMatch_cases {s : List Char} {m : TocMatch} (h : findMatch s = some m) :
    ∃ i d, firstOcc startTag s = some i ∧
      firstOcc endTag (s.drop (i + startTag.length)) = some d ∧
      m = ⟨i - backRun s i, i, i + startTag.length + d,
        i + startTag.length + d + endTag.length
          + fwdRun s (i + startTag.length + d + endTag.length)⟩ := by
  unfold findMatch at h
  cases h1 : firstOcc startTag s with
  | none => rw [h1] at h; cases h
  | some i =>
    rw [h1] at h
    simp only [] at h
    cases h2 : firstOcc endTag (s.drop (i + startTag.length)) with
    | none => rw [h2] at h; cases h
    | some d =>
      rw [h2] at h
      exact ⟨i, d, rfl, h2, (Option.some.inj h).symm⟩

theorem findMatch_bounds {s : List Char} {m : TocMatch} (h : findMatch s = some m) :
    m.l ≤ m.i ∧ m.i + startTag.length ≤ m.j ∧ m.j + endTag.length ≤ m.r ∧
    m.r ≤ s.length ∧ 0 < m.r := by
  obtain ⟨i, d, h1, h2, hm⟩ := findMatch_cases h
  subst hm
  simp only []
  have hd := firstOcc_some_le endTag_ne_nil h2
  rw [List.length_drop] at hd
  have hfr := fwdRun_le s (i + startTag.length + d + endTag.length)
  have hback := backRun_le s i
  have hst : startTag.length = 17 := by decide
  have het : endTag.length = 15 := by decide
  omega

theorem findMatch_nil : findMatch ([] : List Char) = none := by decide

theorem subnF_fuel {tpl : List TItem} :
    ∀ (f₁ f₂ : Nat) (s : List Char), s.length ≤ f₁ → s.length ≤ f₂ →
      subnF tpl f₁ s = subnF tpl f₂ s := by
  intro f₁
  induction f₁ with
  | zero =>
    intro f₂ s h1 _
    have hs : s = [] := List.length_eq_zero.mp (Nat.le_zero.mp h1)
    subst hs
    cases f₂ with
    | zero => rfl
    | succ f => simp [subnF, findMatch_nil]
  | succ f ih =>
    intro f₂ s h1 h2
    cases f₂ with
    | zero =>
      have hs : s = [] := List.length_eq_zero.mp (Nat.le_zero.mp h2)
      subst hs
      simp [subnF, findMatch_nil]
    | succ f₂' =>
      simp only [subnF]
      cases hm : findMatch s with
      | none => rfl
      | some m =>
        have hb := findMatch_bounds hm
        have hd1 : (s.drop m.r).length ≤ f := by
          rw [List.length_drop]; omega
        have hd2 : (s.drop m.r).length ≤ f₂' := by
          rw [List.length_drop]; omega
        simp only [ih f₂' (s.drop m.r) hd1 hd2]

theorem tocSubn_none {tpl : List TItem} {s : List Char} (h : findMatch s = none) :
    tocSubn tpl s = (s, 0) := by
  unfold tocSubn
  cases hl : s.length with
  | zero => rfl
  | succ n => simp [subnF, h]

theorem tocSubn_some {tpl : List TItem} {s : List Char} {m : TocMatch}
    (h : findMatch s = some m) :
    tocSubn tpl s
      = (s.take m.l
          ++ expandT tpl ((s.take m.r).drop m.l) ((s.take m.j).drop (m.i + startTag.length))
          ++ (tocSubn tpl (s.drop m.r)).1,
         (tocSubn tpl (s.drop m.r)).2 + 1) := by
  have hb := findMatch_bounds h
  have hlen : 0 < s.length := by omega
  obtain ⟨n, hn⟩ : ∃ n, s.length = n + 1 := ⟨s.length - 1, by omega⟩
  unfold tocSubn
  rw [hn]
  simp only [subnF, h]
  rw [subnF_fuel n (s.drop m.r).length (s.drop m.r)
    (by rw [List.length_drop]; omega) (le_refl _)]

theorem tocSubn_count : ∀ (n : Nat) (tpl : List TItem) (s : List Char), s.length ≤ n →
    (tocSubn tpl s).2 = countMatches s := by
  intro n
  induction n with
  | zero =>
    intro tpl s h
    have hs : s = [] := List.length_eq_zero.mp (Nat.le_zero.mp h)
    subst hs
    rfl
  | succ n ih =>
    intro tpl s h
    cases hm : findMatch s with
    | none =>
      unfold countMatches
      rw [tocSubn_none hm, tocSubn_none hm]
    | some m =>
      have hb := findMatch_bounds hm
      have hd : (s.drop m.r).length ≤ n := by rw [List.length_drop]; omega
      unfold countMatches
      rw [tocSubn_some hm, @tocSubn_some [] s m hm]
      simp only []
      exact congrArg (· + 1) (ih tpl (s.drop m.r) hd)

theorem countMatches_none {s : List Char} (h : findMatch s = none) :
    countMatches s = 0 := by
  unfold countMatches
  rw [tocSubn_none h]

theorem countMatches_some {s : List Char} {m : TocMatch} (h : findMatch s = some m) :
    countMatches s = countMatches (s.drop m.r) + 1 := by
  unfold countMatches
  rw [tocSubn_some h]

theorem countMatches_pos_iff {md : List Char} :
    1 ≤ countMatches md ↔ findMatch md ≠ none := by
  constructor
  · intro h hc
    rw [countMatches_none hc] at h
    omega
  · intro h
    cases hm : findMatch md with
    | none => exact absurd hm h
    | some m => rw [countMatches_some hm]; omega

/-! ## Claim C8 -/

/-- C8, counterexample: the claim says a delimiter occurrence embedded in
a line containing other non-whitespace content does not count toward the
patcher's match count.  In the one-line document
`a<!---toc start-->x<!---toc end-->b` both delimiters are embedded in a
line whose first character is the letter `a`, so under the claim the
count would be `0`; the code counts `1` (and the patcher in fact
rewrites the document). -/
theorem c8_counterexample :
    countMatches "a<!---toc start-->x<!---toc end-->b".toList = 1 ∧
    splitNL "a<!---toc start-->x<!---toc end-->b".toList
      = ["a<!---toc start-->x<!---toc end-->b".toList] ∧
    "a<!---toc start-->x<!---toc end-->b".toList.head? = some 'a' ∧
    modify_and_write "a<!---toc start-->x<!---toc end-->b".toList
      = .ok "a<!---toc start-->\n\n\n\n<!---toc end-->b".toList := by
  exact ⟨by decide, by decide, by decide, by decide⟩

/-- C8 (amended): `TOC_PAT` does not require the delimiters to stand on
their own lines.  The patcher counts at least one match exactly when some
occurrence of the start delimiter is followed (at or after its end) by an
occurrence of the end delimiter, wherever in their lines the two
occurrences sit; adjacent horizontal whitespace is merely absorbed into
the matched span. -/
theorem c8_theorem (md : List Char) :
    1 ≤ countMatches md ↔
      ∃ i j, occAt startTag md i = true ∧ occAt endTag md j = true ∧
        i + startTag.length ≤ j := by
  rw [countMatches_pos_iff]
  constructor
  · intro h
    cases hm : findMatch md with
    | none => exact absurd hm h
    | some m =>
      obtain ⟨i, d, h1, h2, _⟩ := findMatch_cases hm
      refine ⟨i, i + startTag.length + d, firstOcc_some_occ h1, ?_, by omega⟩
      have := firstOcc_some_occ h2
      rwa [occAt_drop] at this
  · rintro ⟨i, j, hS, hE, hij⟩
    cases h1 : firstOcc startTag md with
    | none => rw [firstOcc_none startTag_ne_nil h1 i] at hS; cases hS
    | some i₀ =>
      have hi₀ : i₀ ≤ i := by
        by_contra hc
        rw [firstOcc_some_min h1 i (by omega)] at hS
        cases hS
      have hEd : occAt endTag (md.drop (i₀ + startTag.length)) (j - (i₀ + startTag.length))
          = true := by
        rw [occAt_drop]
        have : i₀ + startTag.length + (j - (i₀ + startTag.length)) = j := by omega
        rw [this]
        exact hE
      cases h2 : firstOcc endTag (md.drop (i₀ + startTag.length)) with
      | none =>
        rw [firstOcc_none endTag_ne_nil h2 _] at hEd
        cases hEd
      | some d =>
        intro hc
        unfold findMatch at hc
        rw [h1] at hc
        simp only [] at hc
        rw [h2] at hc
        cases hc

/-! ## Claim C2 -/

/-- The `n_seen` mapping after the `toc` loop has processed the headers
in `pre`. -/
def seenOf (pre : List (Nat × List Char)) : List (List Char × Nat) :=
  pre.foldl (fun m h => bump m (as_link h.2)) []

/-- How many headers of `pre` have base anchor `b`. -/
def baseCountIn (pre : List (Nat × List Char)) (b : List Char) : Nat :=
  pre.countP (fun h => as_link h.2 = b)

/-- The anchor the `toc` loop resolves for a header with text `txt` when
the headers in `pre` were processed before it: the base anchor for the
first occurrence of that base, `base-n` for the `n`-th repeat. -/
def resolvedLink (pre : List (Nat × List Char)) (txt : List Char) : List Char :=
  let b := as_link txt
  let n := baseCountIn pre b
  if n = 0 then b else b ++ '-' :: natStr n

theorem lookupCount_bump (m : List (List Char × Nat)) (k q : List Char) :
    lookupCount (bump m k) q = if k = q then lookupCount m q + 1 else lookupCount m q := by
  show (if k = q then lookupCount m k + 1 else lookupCount m q) = _
  by_cases h : k = q
  · rw [if_pos h, if_pos h, h]
  · rw [if_neg h, if_neg h]

theorem seenOf_append_one (pre : List (Nat × List Char)) (h : Nat × List Char) :
    seenOf (pre ++ [h]) = bump (seenOf pre) (as_link h.2) := by
  unfold seenOf
  rw [List.foldl_append]
  rfl

theorem seenOf_count (pre : List (Nat × List Char)) (b : List Char) :
    lookupCount (seenOf pre) b = baseCountIn pre b := by
  induction pre using List.reverseRecOn with
  | nil => rfl
  | append_singleton pre h ih =>
    rw [seenOf_append_one, lookupCount_bump]
    unfold baseCountIn
    rw [List.countP_append]
    unfold baseCountIn at ih
    by_cases hb : as_link h.2 = b
    · rw [if_pos hb, ih]
      simp [hb]
    · rw [if_neg hb, ih]
      simp [hb]

theorem tocAux_spec :
    ∀ (hs pre : List (Nat × List Char)) (n lv : Nat) (txt : List Char),
      hs[n]? = some (lv, txt) →
      (tocAux hs (seenOf pre))[n]?
        = some (tocLine lv txt (resolvedLink (pre ++ hs.take n) txt)) := by
  intro hs
  induction hs with
  | nil => intro pre n lv txt h; simp at h
  | cons hd rest ih =>
    intro pre n lv txt h
    obtain ⟨lv₀, txt₀⟩ := hd
    show (tocLine lv₀ txt₀ _ :: tocAux rest (bump (seenOf pre) (as_link txt₀)))[n]? = _
    cases n with
    | zero =>
      simp only [List.getElem?_cons_zero] at h ⊢
      obtain ⟨h1, h2⟩ := Prod.mk.injEq .. ▸ Option.some.inj h
      subst h1; subst h2
      simp only [List.take_zero, List.append_nil, Option.some.injEq]
      unfold resolvedLink
      simp only []
      rw [← seenOf_count]
      by_cases h0 : lookupCount (seenOf pre) (as_link txt₀) = 0
      · rw [if_pos h0, h0]
        rfl
      · rw [if_neg h0]
        have : lookupCount (seenOf pre) (as_link txt₀) > 0 := Nat.pos_of_ne_zero h0
        simp only [this, if_pos]
    | succ n =>
      simp only [List.getElem?_cons_succ] at h ⊢
      rw [← seenOf_append_one pre (lv₀, txt₀)]
      rw [ih (pre ++ [(lv₀, txt₀)]) n lv txt h]
      rw [List.take_succ_cons, List.append_assoc]
      rfl

/-- C4: within one `toc` call, headers with equal base anchors receive
`base`, `base-1`, `base-2`, … in document order — the `n`-th entry of the
rendered line list carries the anchor determined by how many earlier
headers share its base anchor — and on the input
`# foo\n ## foo\n  ### foo` the rendered TOC is
`* [foo](#foo)\n  * [foo](#foo-1)\n    * [foo](#foo-2)`. -/
theorem c4_theorem :
    (∀ (hs : List (Nat × List Char)) (n lv : Nat) (txt : List Char),
      hs[n]? = some (lv, txt) →
      (tocAux hs [])[n]? = some (tocLine lv txt (resolvedLink (hs.take n) txt))) ∧
    toc "# foo\n ## foo\n  ### foo".toList
      = "* [foo](#foo)\n  * [foo](#foo-1)\n    * [foo](#foo-2)".toList := by
  constructor
  · intro hs n lv txt h
    have := tocAux_spec hs [] n lv txt h
    simpa using this
  · decide

/-- Witness for C4: the second header of the scenario input is `## foo`,
and its rendered line resolves the anchor `foo-1`. -/
theorem c4_witness :
    (headers "# foo\n ## foo\n  ### foo".toList)[1]? = some (2, "foo".toList) ∧
    (tocAux (headers "# foo\n ## foo\n  ### foo".toList) [])[1]?
      = some (tocLine 2 "foo".toList
          (resolvedLink ((headers "# foo\n ## foo\n  ### foo".toList).take 1) "foo".toList)) :=
  ⟨by decide, c4_theorem.1 _ 1 2 "foo".toList (by decide)⟩

/-! ## Claim C5 -/

theorem takeWhile_eq_take {p : Char → Bool} (l : List Char) :
    l.takeWhile p = l.take (l.takeWhile p).length :=
  List.prefix_iff_eq_take.mp (List.takeWhile_prefix p)

theorem takeWhile_append_sat_stop {p : Char → Bool} {a b : List Char}
    (ha : ∀ c ∈ a, p c = true) (hb : ∀ c, b.head? = some c → p c = false) :
    (a ++ b).takeWhile p = a := by
  induction a with
  | nil =>
    cases b with
    | nil => rfl
    | cons x xs =>
      have := hb x rfl
      simp [List.takeWhile_cons, this]
  | cons x xs ih =>
    have hx : p x = true := ha x (List.mem_cons_self x xs)
    simp only [List.cons_append, List.takeWhile_cons, hx, if_pos]
    rw [ih (fun c hc => ha c (List.mem_cons_of_mem x hc))]

/-- The header rule exactly as claim C5 states it, with zero to three
leading SPACE characters (`' '` only) rather than arbitrary whitespace. -/
def claimHeaderLine (l : List Char) : Option (Nat × List Char) :=
  let k := (l.takeWhile (· = ' ')).length
  if k ≤ 3 then
    let afterWs := l.drop k
    let m := (afterWs.takeWhile (· = '#')).length
    if 1 ≤ m && m ≤ 6 then
      let afterHash := afterWs.drop m
      let w := (afterHash.takeWhile isPySpace).length
      if 1 ≤ w then some (m, afterHash.drop w) else none
    else none
  else none

/-- C5, counterexample: the claim requires zero to three leading SPACES,
but `HEADER_PAT` begins with `\s{,3}`, which also accepts tabs (and other
whitespace).  The line `\t# x` is recognised by the code as a level-1
header with text `x`, while the claim's rule rejects it. -/
theorem c5_counterexample :
    headerLine "\t# x".toList = some (1, "x".toList) ∧
    claimHeaderLine "\t# x".toList = none ∧
    ('\t' = ' ') = False :=
  ⟨by decide, by decide, by simp⟩

/-- C5 (amended): a line is recognised as a header exactly when it is
leading whitespace (any `\s` character, up to three of them), then 1–6
`#`, then a nonempty whitespace run, then the text, which does not start
with whitespace (the greedy `\s+` eats the whole run); the level is the
number of `#` and the text is the remainder after that run. -/
theorem c5_theorem (l : List Char) (lv : Nat) (txt : List Char) :
    headerLine l = some (lv, txt) ↔
      ∃ ws sp, l = ws ++ List.replicate lv '#' ++ (sp ++ txt) ∧
        ws.length ≤ 3 ∧ (∀ c ∈ ws, isPySpace c = true) ∧
        1 ≤ lv ∧ lv ≤ 6 ∧
        sp ≠ [] ∧ (∀ c ∈ sp, isPySpace c = true) ∧
        (∀ c, txt.head? = some c → isPySpace c = false) := by
  constructor
  · intro h
    unfold headerLine at h
    by_cases hk : (l.takeWhile isPySpace).length ≤ 3
    · rw [if_pos hk] at h
      set k := (l.takeWhile isPySpace).length with hkdef
      set afterWs := l.drop k with hawdef
      by_cases hm : 1 ≤ (afterWs.takeWhile (· = '#')).length ∧
          (afterWs.takeWhile (· = '#')).length ≤ 6
      · rw [if_pos (by simpa using hm)] at h
        set m := (afterWs.takeWhile (· = '#')).length with hmdef
        set afterHash := afterWs.drop m with hahdef
        by_cases hw : 1 ≤ (afterHash.takeWhile isPySpace).length
        · rw [if_pos (by simpa using hw)] at h
          set w := (afterHash.takeWhile isPySpace).length with hwdef
          obtain ⟨hlv, htxt⟩ := Prod.mk.injEq .. ▸ Option.some.inj h
          refine ⟨l.takeWhile isPySpace, afterHash.take w, ?_, hk, ?_, ?_, ?_, ?_, ?_, ?_⟩
          · have t1 : l.take k = l.takeWhile isPySpace := by
              rw [hkdef, ← takeWhile_eq_take]
            have t2 : afterWs.take m = List.replicate lv '#' := by
              rw [← hlv]
              have t2a : afterWs.take m = afterWs.takeWhile (· = '#') := by
                rw [hmdef, ← takeWhile_eq_take]
              rw [t2a, List.eq_replicate_iff]
              exact ⟨by rw [hmdef], fun b hb => by simpa using List.mem_takeWhile_imp hb⟩
            have c2 : afterWs = List.replicate lv '#' ++ (afterHash.take w ++ txt) := by
              calc afterWs = afterWs.take m ++ afterHash := by
                    rw [hahdef]; exact (List.take_append_drop m afterWs).symm
                _ = List.replicate lv '#' ++ afterHash := by rw [t2]
                _ = List.replicate lv '#' ++ (afterHash.take w ++ afterHash.drop w) := by
                    rw [List.take_append_drop]
                _ = List.replicate lv '#' ++ (afterHash.take w ++ txt) := by rw [htxt]
            calc l = l.take k ++ afterWs := by
                  rw [hawdef]; exact (List.take_append_drop k l).symm
              _ = l.takeWhile isPySpace ++ afterWs := by rw [t1]
              _ = l.takeWhile isPySpace
                    ++ (List.replicate lv '#' ++ (afterHash.take w ++ txt)) := by rw [c2]
              _ = l.takeWhile isPySpace ++ List.replicate lv '#'
                    ++ (afterHash.take w ++ txt) := by rw [List.append_assoc]
          · intro c hc
            exact List.mem_takeWhile_imp hc
          · omega
          · omega
          · intro hemp
            have h0 : (afterHash.take w).length = 0 := by rw [hemp]; rfl
            rw [List.length_take] at h0
            have hwle : w ≤ afterHash.length := by
              rw [hwdef]; exact takeWhile_len_le isPySpace afterHash
            omega
          · intro c hc
            have ht : afterHash.take w = afterHash.takeWhile isPySpace := by
              rw [hwdef, ← takeWhile_eq_take]
            rw [ht] at hc
            exact List.mem_takeWhile_imp hc
          · intro c hc
            rw [← htxt, List.head?_drop] at hc
            exact takeWhile_stop afterHash c hc
        · rw [if_neg (by simpa using hw)] at h
          cases h
      · rw [if_neg (by simpa using hm)] at h
        cases h
    · rw [if_neg hk] at h
      cases h
  · rintro ⟨ws, sp, hdec, hws3, hwssp, hlv1, hlv6, hspne, hspsp, htxth⟩
    have hhash : ∀ c ∈ List.replicate lv '#', (c = '#' : Bool) = true := by
      intro c hc
      rw [(List.mem_replicate.mp hc).2]
      simp
    have hsphead : ∀ c, (sp ++ txt).head? = some c → (c = '#' : Bool) = false := by
      intro c hc
      cases sp with
      | nil => exact absurd rfl hspne
      | cons s ss =>
        have hs : isPySpace s = true := hspsp s (List.mem_cons_self s ss)
        simp only [List.cons_append, List.head?_cons, Option.some.injEq] at hc
        have hsc : isPySpace c = true := hc ▸ hs
        by_cases hcc : c = '#'
        · rw [hcc] at hsc
          exact absurd hsc (by decide)
        · simpa using hcc
    have hwsstop : ∀ c, (List.replicate lv '#' ++ (sp ++ txt)).head? = some c →
        isPySpace c = false := by
      intro c hc
      cases lv with
      | zero => omega
      | succ n =>
        simp only [List.replicate_succ, List.cons_append, List.head?_cons,
          Option.some.injEq] at hc
        rw [← hc]
        decide
    have e1 : l.takeWhile isPySpace = ws := by
      rw [hdec, List.append_assoc]
      exact takeWhile_append_sat_stop hwssp hwsstop
    have e2 : l.drop ws.length = List.replicate lv '#' ++ (sp ++ txt) := by
      rw [hdec, List.append_assoc, List.drop_left]
    have e3 : (List.replicate lv '#' ++ (sp ++ txt)).takeWhile (· = '#')
        = List.replicate lv '#' := takeWhile_append_sat_stop hhash hsphead
    have e4 : (List.replicate lv '#' ++ (sp ++ txt)).drop lv = sp ++ txt :=
      List.drop_left' (by simp)
    have e5 : (sp ++ txt).takeWhile isPySpace = sp :=
      takeWhile_append_sat_stop hspsp htxth
    have e6 : (sp ++ txt).drop sp.length = txt := List.drop_left sp txt
    unfold headerLine
    simp only []
    rw [e1, if_pos hws3, e2, e3, List.length_replicate]
    rw [if_pos (by simp only [Bool.and_eq_true, decide_eq_true_eq]; exact ⟨hlv1, hlv6⟩)]
    rw [e4, e5]
    rw [if_pos (show 1 ≤ sp.length from List.length_pos.mpr hspne)]
    rw [e6]

/-- Witness for C5: the line `  ## x y` decomposes as two spaces, two
hashes, one space, and text `x y`. -/
theorem c5_witness :
    headerLine "  ## x y".toList = some (2, "x y".toList) ↔
      ∃ ws sp, "  ## x y".toList = ws ++ List.replicate 2 '#' ++ (sp ++ "x y".toList) ∧
        ws.length ≤ 3 ∧ (∀ c ∈ ws, isPySpace c = true) ∧
        1 ≤ 2 ∧ 2 ≤ 6 ∧
        sp ≠ [] ∧ (∀ c ∈ sp, isPySpace c = true) ∧
        (∀ c, "x y".toList.head? = some c → isPySpace c = false) :=
  c5_theorem ("  ## x y".toList) 2 "x y".toList

/-! ## Claim C6 -/

/-- Number of fence-toggle lines (lines starting with three backticks). -/
def countFence (ls : List (List Char)) : Nat :=
  ls.countP lineIsFence

/-- The fence flag after the `headers` loop has processed `ls`,
starting from flag `f`. -/
def flagAfter (f : Bool) (ls : List (List Char)) : Bool :=
  ls.foldl (fun g l => if lineIsFence l then !g else g) f

theorem headersAux_cons (f : Bool) (l : List Char) (rest : List (List Char)) :
    headersAux f (l :: rest) =
      (if (if lineIsFence l then !f else f) then
        headersAux (if lineIsFence l then !f else f) rest
      else
        match headerLine l with
        | some h => h :: headersAux (if lineIsFence l then !f else f) rest
        | none => headersAux (if lineIsFence l then !f else f) rest) := rfl

theorem flagAfter_cons (f : Bool) (l : List Char) (rest : List (List Char)) :
    flagAfter f (l :: rest) = flagAfter (if lineIsFence l then !f else f) rest := rfl

theorem headersAux_append :
    ∀ (X : List (List Char)) (f : Bool) (Y : List (List Char)),
      headersAux f (X ++ Y) = headersAux f X ++ headersAux (flagAfter f X) Y := by
  intro X
  induction X with
  | nil => intro f Y; rfl
  | cons l rest ih =>
    intro f Y
    show headersAux f (l :: (rest ++ Y)) = _
    rw [headersAux_cons, headersAux_cons, flagAfter_cons]
    by_cases hf : (if lineIsFence l then !f else f) = true
    · rw [if_pos hf, if_pos hf, ih]
    · rw [if_neg hf, if_neg hf]
      cases headerLine l with
      | some h => rw [ih]; rfl
      | none => rw [ih]

theorem headersAux_true_nofence :
    ∀ L : List (List Char), (∀ l ∈ L, lineIsFence l = false) →
      headersAux true L = [] := by
  intro L
  induction L with
  | nil => intro _; rfl
  | cons l rest ih =>
    intro h
    have hl : lineIsFence l = false := h l (List.mem_cons_self l rest)
    rw [headersAux_cons, hl]
    simp only [Bool.false_eq_true, if_false]
    rw [if_pos trivial]
    exact ih (fun x hx => h x (List.mem_cons_of_mem l hx))

theorem flagAfter_nofence :
    ∀ (L : List (List Char)) (f : Bool), (∀ l ∈ L, lineIsFence l = false) →
      flagAfter f L = f := by
  intro L
  induction L with
  | nil => intro f _; rfl
  | cons l rest ih =>
    intro f h
    have hl : lineIsFence l = false := h l (List.mem_cons_self l rest)
    rw [flagAfter_cons, hl]
    simp only [Bool.false_eq_true, if_false]
    exact ih f (fun x hx => h x (List.mem_cons_of_mem l hx))

theorem flagAfter_parity :
    ∀ (L : List (List Char)) (f : Bool),
      flagAfter f L = xor f (decide (countFence L % 2 = 1)) := by
  intro L
  induction L with
  | nil =>
    intro f
    show f = xor f (decide (0 % 2 = 1))
    simp
  | cons l rest ih =>
    intro f
    rw [flagAfter_cons]
    by_cases hl : lineIsFence l = true
    · have hstep : (if lineIsFence l then !f else f) = !f := by
        simp [hl]
      have hcount : countFence (l :: rest) = countFence rest + 1 := by
        unfold countFence
        rw [List.countP_cons]
        simp [hl]
      rw [hstep, ih, hcount]
      by_cases hp : countFence rest % 2 = 1
      · have h1 : ¬ ((countFence rest + 1) % 2 = 1) := by omega
        rw [decide_eq_true hp, decide_eq_false h1]
        cases f <;> rfl
      · have h1 : (countFence rest + 1) % 2 = 1 := by omega
        rw [decide_eq_true h1, decide_eq_false hp]
        cases f <;> rfl
    · have hl' : lineIsFence l = false := Bool.eq_false_iff.mpr hl
      have hstep : (if lineIsFence l then !f else f) = f := by
        simp [hl']
      have hcount : countFence (l :: rest) = countFence rest := by
        unfold countFence
        rw [List.countP_cons]
        simp [hl']
      rw [hstep, ih, hcount]

/-- C6: the `headers` scanner keeps an in-fence flag toggled by every
line beginning with three backticks and yields no header while the flag
is set.  First conjunct: after an unmatched opening fence (flag set) a
fence-free remainder of the document produces no headers at all.  Second
conjunct: a block of fence-free lines lying between an odd-count prefix
of fence toggles and the following lines contributes nothing — deleting
it does not change the header sequence. -/
theorem c6_theorem :
    (∀ L : List (List Char), (∀ l ∈ L, lineIsFence l = false) →
      headersAux true L = []) ∧
    (∀ L1 L2 L3 : List (List Char), countFence L1 % 2 = 1 →
      (∀ l ∈ L2, lineIsFence l = false) →
      headersAux false (L1 ++ L2 ++ L3) = headersAux false (L1 ++ L3)) := by
  constructor
  · exact headersAux_true_nofence
  · intro L1 L2 L3 hodd h2
    have hfl : flagAfter false L1 = true := by
      rw [flagAfter_parity]
      simp [hodd]
    rw [List.append_assoc, headersAux_append, headersAux_append L1 false L3, hfl]
    rw [headersAux_append L2 true L3, headersAux_true_nofence L2 h2]
    rw [flagAfter_nofence L2 true h2]
    rfl

/-- Witness for C6: the fenced block (an unterminated fence, then two
would-be header lines) contributes no headers, and deleting the fence-free
block between the toggles leaves the header sequence unchanged. -/
theorem c6_witness :
    (∀ l ∈ ["# a".toList, "## b".toList], lineIsFence l = false) ∧
    headersAux true ["# a".toList, "## b".toList] = [] ∧
    countFence ["```".toList] % 2 = 1 ∧
    headersAux false (["```".toList] ++ ["# hidden".toList] ++ ["```".toList, "# seen".toList])
      = headersAux false (["```".toList] ++ ["```".toList, "# seen".toList]) :=
  ⟨by decide, c6_theorem.1 _ (by decide), by decide,
    c6_theorem.2 ["```".toList] ["# hidden".toList] ["```".toList, "# seen".toList]
      (by decide) (by decide)⟩

/-! ## Claim C7 -/

theorem dropWhile_replicate_append (p : Char → Bool) (c : Char) (hp : p c = true) :
    ∀ (a : Nat) (rest : List Char),
      (List.replicate a c ++ rest).dropWhile p = rest.dropWhile p := by
  intro a
  induction a with
  | zero => intro rest; rfl
  | succ n ih =>
    intro rest
    rw [List.replicate_succ, List.cons_append, List.dropWhile_cons, hp]
    simp only [if_true]
    exact ih rest

theorem dropWhile_of_head_false {p : Char → Bool} {l : List Char}
    (h : ∀ c, l.head? = some c → p c = false) : l.dropWhile p = l := by
  cases l with
  | nil => rfl
  | cons x xs =>
    rw [List.dropWhile_cons, h x rfl]
    simp

/-- The trailing-hyphen collapse exactly as claim C7 states it: only the
trailing run of hyphens is replaced by a single hyphen; all other
characters, including leading hyphens, stay. -/
def claimCollapse (res : List Char) : List Char :=
  (res.reverse.dropWhile (· = '-')).reverse ++ ['-']

/-- C7, counterexample: on input `-a -` the intermediate string is
`-a--`, which ends in two hyphens; the claim says the slug is `-a-`
(leading hyphen untouched), but `res.strip("-") + "-"` also removes the
leading hyphen, so the code returns `a-`. -/
theorem c7_counterexample :
    asLinkRes "-a -".toList = "-a--".toList ∧
    "-a--".toList.reverse.take 2 = ['-', '-'] ∧
    claimCollapse (asLinkRes "-a -".toList) = "-a-".toList ∧
    as_link "-a -".toList = "a-".toList ∧
    as_link "-a -".toList ≠ claimCollapse (asLinkRes "-a -".toList) :=
  ⟨by decide, by decide, by decide, by decide, by decide⟩

/-- C7 (amended): when the intermediate string (after trimming,
lower-casing, whitespace collapsing and punctuation removal) ends in two
or more hyphens, the returned slug is that string with its LEADING run of
hyphens removed entirely and its trailing run collapsed to exactly one
hyphen; the characters between the two runs are unchanged. -/
theorem c7_theorem (x : List Char) (a b : Nat) (core : List Char)
    (hres : asLinkRes x = List.replicate a '-' ++ core ++ List.replicate b '-')
    (hhead : ∀ c, core.head? = some c → c ≠ '-')
    (hlast : ∀ c, core.getLast? = some c → c ≠ '-')
    (hb : 2 ≤ b) :
    as_link x = core ++ ['-'] := by
  have hp : (fun c => decide (c = '-')) '-' = true := by decide
  have hends : (asLinkRes x).reverse.take 2 = ['-', '-'] := by
    rw [hres]
    rw [List.reverse_append, List.reverse_append, List.reverse_replicate]
    rw [List.take_append_of_le_length (by rw [List.length_replicate]; omega)]
    rw [List.take_replicate]
    have hm : min 2 b = 2 := by omega
    rw [hm]
    rfl
  show (if (asLinkRes x).reverse.take 2 = ['-', '-'] then
      (((asLinkRes x).dropWhile (· = '-')).reverse.dropWhile (· = '-')).reverse ++ ['-']
    else asLinkRes x) = core ++ ['-']
  rw [if_pos hends]
  by_cases hcore : core = []
  · subst hcore
    have hall : asLinkRes x = List.replicate (a + b) '-' := by
      rw [hres, List.append_nil, ← List.replicate_add]
    rw [hall]
    have hd : (List.replicate (a + b) '-').dropWhile (fun c => decide (c = '-')) = [] := by
      have hh := dropWhile_replicate_append (fun c => decide (c = '-')) '-' hp (a + b) ([] : List Char)
      rwa [List.append_nil] at hh
    rw [hd]
    rfl
  · have hheadp : ∀ c, (core ++ List.replicate b '-').head? = some c →
        (fun c => decide (c = '-')) c = false := by
      intro c hc
      cases core with
      | nil => exact absurd rfl hcore
      | cons y ys =>
        simp only [List.cons_append, List.head?_cons, Option.some.injEq] at hc
        have hy := hhead y rfl
        rw [← hc]
        simpa using hy
    have d1 : (asLinkRes x).dropWhile (fun c => decide (c = '-'))
        = core ++ List.replicate b '-' := by
      rw [hres, List.append_assoc,
        dropWhile_replicate_append (fun c => decide (c = '-')) '-' hp,
        dropWhile_of_head_false hheadp]
    rw [d1]
    rw [List.reverse_append, List.reverse_replicate]
    rw [dropWhile_replicate_append (fun c => decide (c = '-')) '-' hp]
    have hlastp : ∀ c, core.reverse.head? = some c →
        (fun c => decide (c = '-')) c = false := by
      intro c hc
      rw [List.head?_reverse] at hc
      have hcl := hlast c hc
      simpa using hcl
    rw [dropWhile_of_head_false hlastp, List.reverse_reverse]

/-- Witness for C7 at the input `-a -`: the intermediate string is
`-a--` = one hyphen, the core `a`, two hyphens, and the slug is `a-`. -/
theorem c7_witness :
    asLinkRes "-a -".toList = List.replicate 1 '-' ++ ['a'] ++ List.replicate 2 '-' ∧
    as_link "-a -".toList = ['a'] ++ ['-'] :=
  ⟨by decide, c7_theorem ("-a -".toList) 1 2 ['a'] (by decide)
    (fun c hc => by simp at hc; rw [← hc]; decide)
    (fun c hc => by simp at hc; rw [← hc]; decide) (by omega)⟩

/-! ## Decomposition of a successful patch -/

theorem mkTemplate_no_backslash {t : List Char} (h : t.all (· ≠ '\\') = true) :
    (mkTemplate t).all (· ≠ '\\') = true := by
  unfold mkTemplate
  rw [List.all_append]
  simp only [List.all_cons]
  rw [List.all_append]
  simp only [List.all_cons]
  rw [h]
  decide

theorem expandT_map_lit (r whole grp1 : List Char) :
    expandT (r.map TItem.lit) whole grp1 = r := by
  induction r with
  | nil => rfl
  | cons c rest ih =>
    show (expandT (TItem.lit c :: rest.map TItem.lit) whole grp1) = c :: rest
    unfold expandT at ih ⊢
    rw [List.flatMap_cons]
    rw [ih]
    rfl

theorem modify_and_write_noBackslash {md : List Char}
    (hb : (toc md).all (· ≠ '\\') = true) :
    modify_and_write md =
      (if (tocSubn ((mkTemplate (toc md)).map TItem.lit) md).2 = 0 then .error .missingTags
       else if (tocSubn ((mkTemplate (toc md)).map TItem.lit) md).2 > 1 then
         .error .multipleTags
       else .ok (tocSubn ((mkTemplate (toc md)).map TItem.lit) md).1) := by
  have hb' := mkTemplate_no_backslash hb
  unfold modify_and_write pySubn
  rw [if_pos hb']

theorem tocSubn_single {tpl : List TItem} {s : List Char} {m : TocMatch}
    (hm : findMatch s = some m) (h1 : countMatches s = 1) :
    tocSubn tpl s = (s.take m.l
      ++ expandT tpl ((s.take m.r).drop m.l) ((s.take m.j).drop (m.i + startTag.length))
      ++ s.drop m.r, 1) := by
  have h2 := countMatches_some hm
  have h0 : countMatches (s.drop m.r) = 0 := by omega
  have hnone : findMatch (s.drop m.r) = none := by
    cases hf : findMatch (s.drop m.r) with
    | none => rfl
    | some m' => rw [countMatches_some hf] at h0; omega
  rw [tocSubn_some hm, tocSubn_none hnone]

theorem mw_ok_decomp {md out : List Char}
    (hb : (toc md).all (· ≠ '\\') = true) (h : modify_and_write md = .ok out) :
    ∃ m, findMatch md = some m ∧ countMatches md = 1 ∧
      out = md.take m.l ++ mkTemplate (toc md) ++ md.drop m.r := by
  rw [modify_and_write_noBackslash hb] at h
  have hcnt : (tocSubn ((mkTemplate (toc md)).map TItem.lit) md).2 = countMatches md :=
    tocSubn_count md.length _ md (le_refl _)
  by_cases h0 : (tocSubn ((mkTemplate (toc md)).map TItem.lit) md).2 = 0
  · rw [if_pos h0] at h; cases h
  · rw [if_neg h0] at h
    by_cases h2 : (tocSubn ((mkTemplate (toc md)).map TItem.lit) md).2 > 1
    · rw [if_pos h2] at h; cases h
    · rw [if_neg h2] at h
      have hone : countMatches md = 1 := by omega
      cases hfm : findMatch md with
      | none => rw [countMatches_none hfm] at hone; cases hone
      | some m =>
        refine ⟨m, rfl, hone, ?_⟩
        have := @tocSubn_single ((mkTemplate (toc md)).map TItem.lit) _ _ hfm hone
        rw [this] at h
        simp only [Option.some.injEq, Except.ok.injEq] at h
        rw [← h, expandT_map_lit]

/-! ## Whitespace runs around a match -/

theorem getElem?_reverse_take {s : List Char} {i k : Nat} (hk : k < i) (hi : i ≤ s.length) :
    (s.take i).reverse[k]? = s[i - 1 - k]? := by
  have hlen : (s.take i).length = i := by
    rw [List.length_take]
    omega
  rw [List.getElem?_reverse (by rw [hlen]; omega)]
  rw [hlen]
  rw [List.getElem?_take]
  rw [if_pos (by omega)]

theorem backRun_sat {s : List Char} {i p : Nat} (hi : i ≤ s.length)
    (h1 : i - backRun s i ≤ p) (h2 : p < i) :
    ∀ c, s[p]? = some c → ht c = true := by
  intro c hc
  have hble := backRun_le s i
  have hk : i - 1 - p < backRun s i := by omega
  apply takeWhile_sat (s.take i).reverse (i - 1 - p) c hk
  rw [getElem?_reverse_take (by omega) hi]
  have hp : i - 1 - (i - 1 - p) = p := by omega
  rw [hp]
  exact hc

theorem backRun_stop {s : List Char} {i : Nat} (hi : i ≤ s.length)
    (h : 0 < i - backRun s i) :
    ∀ c, s[i - backRun s i - 1]? = some c → ht c = false := by
  intro c hc
  have hble := backRun_le s i
  apply takeWhile_stop (s.take i).reverse c
  show (s.take i).reverse[((s.take i).reverse.takeWhile ht).length]? = some c
  have hbr : ((s.take i).reverse.takeWhile ht).length = backRun s i := rfl
  rw [hbr, getElem?_reverse_take (by omega) hi]
  have hp : i - 1 - backRun s i = i - backRun s i - 1 := by omega
  rw [hp]
  exact hc

theorem fwdRun_sat {s : List Char} {j p : Nat} (h1 : j ≤ p) (h2 : p < j + fwdRun s j) :
    ∀ c, s[p]? = some c → ht c = true := by
  intro c hc
  have h2' : p < j + ((s.drop j).takeWhile ht).length := h2
  apply takeWhile_sat (s.drop j) (p - j) c (by omega)
  rw [List.getElem?_drop]
  have hp : j + (p - j) = p := by omega
  rw [hp]
  exact hc

theorem fwdRun_stop {s : List Char} {j : Nat} :
    ∀ c, s[j + fwdRun s j]? = some c → ht c = false := by
  intro c hc
  apply takeWhile_stop (s.drop j) c
  show (s.drop j)[((s.drop j).takeWhile ht).length]? = some c
  rw [List.getElem?_drop]
  exact hc

/-! ## Claim C3 -/

/-- C3 (amended): for a document with exactly one `TOC_PAT` match the
patcher's output is the input with the matched span `[m.l, m.r)` replaced
by `mkTemplate (toc md)` — the start delimiter, a blank line, the
rendered TOC, a blank line, and the end delimiter — and every byte
outside the span is unchanged (`md.take m.l` and `md.drop m.r` are kept
verbatim).  The span consists of the start delimiter at `m.i`, the
non-greedy middle running to the first end-delimiter occurrence at
`m.j`, and maximal horizontal whitespace runs on both flanks.  The
proviso that the rendered TOC contain no backslash keeps `re`'s
replacement-template escape processing out of play; without it the
inserted text can differ from the template (see the C2/C1 material). -/
theorem c3_theorem (md out : List Char)
    (hb : (toc md).all (· ≠ '\\') = true)
    (h : modify_and_write md = .ok out) :
    ∃ m : TocMatch,
      out = md.take m.l ++ mkTemplate (toc md) ++ md.drop m.r ∧
      countMatches md = 1 ∧
      occAt startTag md m.i = true ∧
      occAt endTag md m.j = true ∧
      m.l ≤ m.i ∧ m.i + startTag.length ≤ m.j ∧ m.j + endTag.length ≤ m.r ∧
      m.r ≤ md.length ∧
      (∀ p c, m.l ≤ p → p < m.i → md[p]? = some c → ht c = true) ∧
      (∀ p c, m.j + endTag.length ≤ p → p < m.r → md[p]? = some c → ht c = true) ∧
      (∀ q, m.i + startTag.length ≤ q → q < m.j → occAt endTag md q = false) ∧
      (∀ p, p < m.i → occAt startTag md p = false) := by
  obtain ⟨m, hfm, hone, hout⟩ := mw_ok_decomp hb h
  have hbounds := findMatch_bounds hfm
  obtain ⟨i, d, h1, h2, hm⟩ := findMatch_cases hfm
  have hmi : m.i = i := by rw [hm]
  have hml : m.l = i - backRun md i := by rw [hm]
  have hmj : m.j = i + startTag.length + d := by rw [hm]
  have hmr : m.r = i + startTag.length + d + endTag.length
      + fwdRun md (i + startTag.length + d + endTag.length) := by rw [hm]
  have hile := firstOcc_some_le startTag_ne_nil h1
  refine ⟨m, hout, hone, ?_, ?_, hbounds.1, hbounds.2.1, hbounds.2.2.1, hbounds.2.2.2.1,
    ?_, ?_, ?_, ?_⟩
  · rw [hmi]
    exact firstOcc_some_occ h1
  · rw [hmj]
    have ho := firstOcc_some_occ h2
    rwa [occAt_drop] at ho
  · intro p c hp1 hp2 hc
    rw [hml] at hp1
    rw [hmi] at hp2
    exact backRun_sat (by omega) hp1 hp2 c hc
  · intro p c hp1 hp2 hc
    rw [hmj] at hp1
    rw [hmr] at hp2
    have hp1' : i + startTag.length + d + endTag.length ≤ p := by omega
    have hp2' : p < i + startTag.length + d + endTag.length
        + fwdRun md (i + startTag.length + d + endTag.length) := by omega
    exact fwdRun_sat hp1' hp2' c hc
  · intro q hq1 hq2
    rw [hmi] at hq1
    rw [hmj] at hq2
    have hmin := firstOcc_some_min h2 (q - (i + startTag.length)) (by omega)
    rw [occAt_drop] at hmin
    have heq : i + startTag.length + (q - (i + startTag.length)) = q := by omega
    rwa [heq] at hmin
  · intro p hp
    rw [hmi] at hp
    exact firstOcc_some_min h1 p hp

/-- Witness for C3 at a document whose single match carries whitespace on
both flanks and text on both sides. -/
theorem c3_witness :
    (toc "# t\nq  \t<!---toc start-->old<!---toc end--> \tw".toList).all (· ≠ '\\') = true ∧
    (∃ m : TocMatch,
      "# t\nq<!---toc start-->\n\n* [t](#t)\n\n<!---toc end-->w".toList
        = "# t\nq  \t<!---toc start-->old<!---toc end--> \tw".toList.take m.l
          ++ mkTemplate (toc "# t\nq  \t<!---toc start-->old<!---toc end--> \tw".toList)
          ++ "# t\nq  \t<!---toc start-->old<!---toc end--> \tw".toList.drop m.r ∧
      countMatches "# t\nq  \t<!---toc start-->old<!---toc end--> \tw".toList = 1 ∧
      occAt startTag "# t\nq  \t<!---toc start-->old<!---toc end--> \tw".toList m.i = true ∧
      occAt endTag "# t\nq  \t<!---toc start-->old<!---toc end--> \tw".toList m.j = true ∧
      m.l ≤ m.i ∧ m.i + startTag.length ≤ m.j ∧ m.j + endTag.length ≤ m.r ∧
      m.r ≤ "# t\nq  \t<!---toc start-->old<!---toc end--> \tw".toList.length ∧
      (∀ p c, m.l ≤ p → p < m.i →
        "# t\nq  \t<!---toc start-->old<!---toc end--> \tw".toList[p]? = some c →
          ht c = true) ∧
      (∀ p c, m.j + endTag.length ≤ p → p < m.r →
        "# t\nq  \t<!---toc start-->old<!---toc end--> \tw".toList[p]? = some c →
          ht c = true) ∧
      (∀ q, m.i + startTag.length ≤ q → q < m.j →
        occAt endTag "# t\nq  \t<!---toc start-->old<!---toc end--> \tw".toList q = false) ∧
      (∀ p, p < m.i →
        occAt startTag "# t\nq  \t<!---toc start-->old<!---toc end--> \tw".toList p
          = false)) :=
  ⟨by decide,
    c3_theorem ("# t\nq  \t<!---toc start-->old<!---toc end--> \tw".toList)
      "# t\nq<!---toc start-->\n\n* [t](#t)\n\n<!---toc end-->w".toList
      (by decide) (by decide)⟩

/-! ## Claim C10 -/

/-- C10: the TOC that the patcher substitutes is rendered from the
ENTIRE pre-patch document, including the text currently between the
delimiters: a header line inside the delimiter region contributes an
entry to the fresh TOC even though the patch then deletes that line.
Concretely, `<!---toc start-->\n# inside\n<!---toc end-->` patches to a
TOC containing `* [inside](#inside)`; in general the inserted block is
`mkTemplate (toc md)` with `toc` applied to the whole input `md`. -/
theorem c10_theorem :
    modify_and_write "<!---toc start-->\n# inside\n<!---toc end-->".toList
      = .ok "<!---toc start-->\n\n* [inside](#inside)\n\n<!---toc end-->".toList ∧
    toc "<!---toc start-->\n# inside\n<!---toc end-->".toList
      = "* [inside](#inside)".toList ∧
    headers "<!---toc start-->\n# inside\n<!---toc end-->".toList
      = [(1, "inside".toList)] ∧
    (∀ md out, (toc md).all (· ≠ '\\') = true → modify_and_write md = .ok out →
      ∃ pre post, out = pre ++ mkTemplate (toc md) ++ post) := by
  refine ⟨by decide, by decide, by decide, ?_⟩
  intro md out hb h
  obtain ⟨m, _, _, hout⟩ := mw_ok_decomp hb h
  exact ⟨md.take m.l, md.drop m.r, hout⟩

/-- Witness for C10: the general decomposition applied at the concrete
document whose delimiter region contains the header `# inside`. -/
theorem c10_witness :
    (toc "<!---toc start-->\n# inside\n<!---toc end-->".toList).all (· ≠ '\\') = true ∧
    ∃ pre post, "<!---toc start-->\n\n* [inside](#inside)\n\n<!---toc end-->".toList
      = pre ++ mkTemplate (toc "<!---toc start-->\n# inside\n<!---toc end-->".toList)
        ++ post :=
  ⟨by decide,
    c10_theorem.2.2.2 "<!---toc start-->\n# inside\n<!---toc end-->".toList
      "<!---toc start-->\n\n* [inside](#inside)\n\n<!---toc end-->".toList
      (by decide) (by decide)⟩

/-! ## Claim C9 -/

theorem linkBodyF_append : ∀ (fuel : Nat) (s : List Char),
    (linkBodyF fuel s).1 ++ (linkBodyF fuel s).2 = s := by
  intro fuel
  induction fuel with
  | zero => intro s; rfl
  | succ n ih =>
    intro s
    cases s with
    | nil => rfl
    | cons c rest =>
      show ((linkBodyF (n + 1) (c :: rest)).1 ++ (linkBodyF (n + 1) (c :: rest)).2 = c :: rest)
      unfold linkBodyF
      by_cases hc : c = '('
      · rw [if_pos hc]
        by_cases hr : (rest.drop (rest.takeWhile isUrlChar).length).head? = some ')'
        · rw [if_pos hr]
          simp only []
          have hrest : rest = rest.takeWhile isUrlChar
              ++ rest.drop (rest.takeWhile isUrlChar).length := by
            conv_lhs => rw [← List.take_append_drop (rest.takeWhile isUrlChar).length rest]
            rw [← takeWhile_eq_take]
          have hrem : rest.drop (rest.takeWhile isUrlChar).length
              = ')' :: (rest.drop (rest.takeWhile isUrlChar).length).tail := by
            cases hcase : rest.drop (rest.takeWhile isUrlChar).length with
            | nil => rw [hcase] at hr; cases hr
            | cons r rs =>
              rw [hcase] at hr
              simp only [List.head?_cons, Option.some.injEq] at hr
              rw [hr]
              rfl
          rw [hc]
          conv_rhs => rw [hrest, hrem]
          rw [List.cons_append]
          congr 1
          rw [List.append_assoc]
          congr 1
          rw [List.cons_append]
          congr 1
          exact ih _
        · rw [if_neg hr]
          rfl
      · rw [if_neg hc]
        by_cases hu : isUrlChar c = true
        · rw [if_pos hu]
          simp only []
          rw [List.cons_append]
          congr 1
          exact ih rest
        · rw [if_neg hu]
          rfl

theorem linkBody_append (s : List Char) : (linkBody s).1 ++ (linkBody s).2 = s :=
  linkBodyF_append s.length s

/-- The URL-body grammar as the specification words it: a sequence of
items, each a single non-space non-parenthesis character or a balanced
single-level parenthesised group containing no further parentheses or
whitespace. -/
def urlOk (url : List Char) : Prop :=
  ∃ items : List (List Char), url = items.flatten ∧
    ∀ it ∈ items, (∃ c, it = [c] ∧ isUrlChar c = true) ∨
      (∃ g, it = '(' :: (g ++ [')']) ∧ g.all isUrlChar = true)

theorem urlOk_nil : urlOk [] :=
  ⟨[], rfl, fun _ h => absurd h (List.not_mem_nil _)⟩

/-- Whatever the URL-body star consumes satisfies the grammar. -/
theorem linkBodyF_grammar : ∀ (fuel : Nat) (s : List Char),
    urlOk (linkBodyF fuel s).1 := by
  intro fuel
  induction fuel with
  | zero => intro s; exact urlOk_nil
  | succ n ih =>
    intro s
    cases s with
    | nil => exact urlOk_nil
    | cons c rest =>
      show urlOk (linkBodyF (n + 1) (c :: rest)).1
      unfold linkBodyF
      by_cases hc : c = '('
      · rw [if_pos hc]
        by_cases hr : (rest.drop (rest.takeWhile isUrlChar).length).head? = some ')'
        · rw [if_pos hr]
          simp only []
          obtain ⟨items', hf, hi⟩ :=
            ih (rest.drop (rest.takeWhile isUrlChar).length).tail
          refine ⟨('(' :: (rest.takeWhile isUrlChar ++ [')'])) :: items', ?_, ?_⟩
          · rw [List.flatten_cons, ← hf]
            show '(' :: (rest.takeWhile isUrlChar ++ ')' :: _) = _
            rw [List.cons_append, List.append_assoc]
            rfl
          · intro it hit
            rcases List.mem_cons.mp hit with rfl | hit
            · right
              refine ⟨rest.takeWhile isUrlChar, rfl, ?_⟩
              rw [List.all_eq_true]
              exact fun x hx => List.mem_takeWhile_imp hx
            · exact hi it hit
        · rw [if_neg hr]
          exact urlOk_nil
      · rw [if_neg hc]
        by_cases hu : isUrlChar c = true
        · rw [if_pos hu]
          simp only []
          obtain ⟨items', hf, hi⟩ := ih rest
          refine ⟨[c] :: items', ?_, ?_⟩
          · rw [List.flatten_cons, ← hf]
            rfl
          · intro it hit
            rcases List.mem_cons.mp hit with rfl | hit
            · exact Or.inl ⟨c, rfl, hu⟩
            · exact hi it hit
        · rw [if_neg hu]
          exact urlOk_nil

/-- Conversely, the star consumes a grammatical body in full and stops
exactly at the closing parenthesis that follows it. -/
theorem linkBodyF_items : ∀ (fuel : Nat) (items : List (List Char)) (tail : List Char),
    (∀ it ∈ items, (∃ c, it = [c] ∧ isUrlChar c = true) ∨
      (∃ g, it = '(' :: (g ++ [')']) ∧ g.all isUrlChar = true)) →
    tail.head? = some ')' →
    items.flatten.length + tail.length ≤ fuel →
    linkBodyF fuel (items.flatten ++ tail) = (items.flatten, tail) := by
  intro fuel
  induction fuel with
  | zero =>
    intro items tail _ hhd hlen
    cases tail with
    | nil => cases hhd
    | cons t ts => simp at hlen
  | succ n ih =>
    intro items tail hitems hhd hlen
    cases items with
    | nil =>
      obtain ⟨ts, rfl⟩ : ∃ ts, tail = ')' :: ts := by
        cases tail with
        | nil => cases hhd
        | cons t ts =>
          simp only [List.head?_cons, Option.some.injEq] at hhd
          exact ⟨ts, by rw [hhd]⟩
      show linkBodyF (n + 1) (')' :: ts) = ([], ')' :: ts)
      unfold linkBodyF
      rw [if_neg (by decide), if_neg (by decide)]
    | cons it items' =>
      rcases hitems it (List.mem_cons_self it items') with ⟨c, rfl, hc⟩ | ⟨g, rfl, hg⟩
      · have hflat : ([c] :: items').flatten ++ tail = c :: (items'.flatten ++ tail) := by
          rw [List.flatten_cons]
          rfl
        rw [hflat]
        unfold linkBodyF
        have hcp : ¬(c = '(') := by
          intro h
          rw [h] at hc
          exact absurd hc (by decide)
        rw [if_neg hcp, if_pos hc]
        simp only []
        rw [ih items' tail (fun i hi => hitems i (List.mem_cons_of_mem _ hi)) hhd
          (by
            rw [List.flatten_cons] at hlen
            simp only [List.length_append, List.length_cons, List.length_nil] at hlen ⊢
            omega)]
        rw [List.flatten_cons]
        rfl
      · have hflat : (('(' :: (g ++ [')'])) :: items').flatten ++ tail
            = '(' :: (g ++ ')' :: (items'.flatten ++ tail)) := by
          rw [List.flatten_cons]
          show ('(' :: (g ++ [')'])) ++ items'.flatten ++ tail = _
          simp [List.append_assoc]
        rw [hflat]
        unfold linkBodyF
        rw [if_pos rfl]
        have htw : (g ++ ')' :: (items'.flatten ++ tail)).takeWhile isUrlChar = g := by
          apply takeWhile_append_sat_stop
          · intro x hx
            rw [List.all_eq_true] at hg
            exact hg x hx
          · intro x hx
            simp only [List.head?_cons, Option.some.injEq] at hx
            rw [← hx]
            decide
        rw [htw]
        simp only []
        have hdr : (g ++ ')' :: (items'.flatten ++ tail)).drop g.length
            = ')' :: (items'.flatten ++ tail) := List.drop_left g _
        rw [hdr]
        rw [List.head?_cons, if_pos rfl]
        simp only [List.tail_cons]
        rw [ih items' tail (fun i hi => hitems i (List.mem_cons_of_mem _ hi)) hhd
          (by
            rw [List.flatten_cons] at hlen
            simp only [List.length_append, List.length_cons, List.length_nil] at hlen ⊢
            omega)]
        rw [List.flatten_cons]
        show ('(' :: (g ++ ')' :: items'.flatten), tail)
          = (('(' :: (g ++ [')'])) ++ items'.flatten, tail)
        rw [List.cons_append, List.append_assoc]
        rfl

theorem tryLink_spec {s lbl url : List Char} {len : Nat}
    (h : tryLink s = some (lbl, url, len)) :
    s.take len = '[' :: lbl ++ ']' :: '(' :: url ++ [')'] ∧
    len = lbl.length + url.length + 4 ∧
    lbl ≠ [] ∧ (∀ c ∈ lbl, ¬(c = '[' ∨ c = ']')) ∧ urlOk url := by
  unfold tryLink at h
  by_cases hh : s.head? = some '['
  case neg => rw [if_neg hh] at h; cases h
  rw [if_pos hh] at h
  obtain ⟨t, rfl⟩ : ∃ t, s = '[' :: t := by
    cases s with
    | nil => cases hh
    | cons a rest =>
      simp only [List.head?_cons, Option.some.injEq] at hh
      exact ⟨rest, by rw [hh]⟩
  simp only [List.tail_cons] at h
  set label := t.takeWhile (fun c => !(c = '[' || c = ']')) with hlab
  by_cases hle : label.isEmpty
  case pos => rw [if_pos hle] at h; cases h
  rw [if_neg hle] at h
  set after := t.drop label.length with haft
  by_cases hbr : after.take 2 = [']', '(']
  case neg => rw [if_neg hbr] at h; cases h
  rw [if_pos hbr] at h
  set X := after.drop 2 with hXd
  by_cases hcl : (linkBody X).2.head? = some ')'
  case neg => rw [if_neg hcl] at h; cases h
  rw [if_pos hcl] at h
  have hinj := Option.some.inj h
  have h1 : label = lbl := congrArg Prod.fst hinj
  have h2 : (linkBody X).1 = url := congrArg Prod.fst (congrArg Prod.snd hinj)
  have h3 : label.length + (linkBody X).1.length + 4 = len :=
    congrArg Prod.snd (congrArg Prod.snd hinj)
  obtain ⟨rs, hrs⟩ : ∃ rs, (linkBody X).2 = ')' :: rs := by
    cases hc2 : (linkBody X).2 with
    | nil => rw [hc2] at hcl; cases hcl
    | cons r rrest =>
      rw [hc2] at hcl
      simp only [List.head?_cons, Option.some.injEq] at hcl
      exact ⟨rrest, by rw [hcl]⟩
  have htail : t = label ++ after := by
    rw [haft]
    conv_lhs => rw [← List.take_append_drop label.length t]
    congr 1
    rw [hlab, ← takeWhile_eq_take]
  have hafter2 : after = ']' :: '(' :: X := by
    rw [hXd]
    conv_lhs => rw [← List.take_append_drop 2 after]
    rw [hbr]
    rfl
  have hXdec : X = url ++ ')' :: rs := by
    calc X = (linkBody X).1 ++ (linkBody X).2 := (linkBody_append X).symm
      _ = url ++ ')' :: rs := by rw [h2, hrs]
  have h3' : lbl.length + url.length + 4 = len := by
    rw [h1, h2] at h3
    exact h3
  have hfull : '[' :: t = ('[' :: lbl ++ ']' :: '(' :: url ++ [')']) ++ rs := by
    rw [htail, hafter2, hXdec, h1]
    simp
  refine ⟨?_, h3'.symm, ?_, ?_, ?_⟩
  · rw [hfull]
    apply List.take_left'
    simp only [List.length_cons, List.length_append, List.length_nil]
    omega
  · intro hemp
    rw [← h1] at hemp
    rw [hemp] at hle
    exact hle rfl
  · intro c hc
    rw [← h1, hlab] at hc
    have hp := List.mem_takeWhile_imp hc
    simp only [Bool.not_eq_true', Bool.or_eq_false_iff] at hp
    intro hor
    rcases hor with hor | hor
    · rw [hor] at hp
      simpa using hp.1
    · rw [hor] at hp
      simpa using hp.2
  · rw [← h2]
    exact linkBodyF_grammar X.length X

/-- The matcher is complete at a match site: wherever the text starts
with `[` + nonempty bracket-free label + `](` + grammatical URL body +
`)`, `tryLink` recognises exactly that label and body.  All runs are
forced: the label may not contain `]`, so the label star ends at the
first `]`; no body item may begin with `)`, so the body star ends at the
closing parenthesis. -/
theorem tryLink_complete {lbl url rest : List Char}
    (hne : lbl ≠ []) (hall : lbl.all (fun c => !(c = '[' || c = ']')) = true)
    (hu : urlOk url) :
    tryLink ('[' :: lbl ++ ']' :: '(' :: url ++ ')' :: rest)
      = some (lbl, url, lbl.length + url.length + 4) := by
  obtain ⟨items, hflat, hitems⟩ := hu
  have hform : ('[' :: lbl ++ ']' :: '(' :: url ++ ')' :: rest)
      = '[' :: (lbl ++ (']' :: '(' :: (url ++ ')' :: rest))) := by
    simp [List.cons_append, List.append_assoc]
  rw [hform]
  unfold tryLink
  rw [List.head?_cons, if_pos rfl]
  simp only [List.tail_cons]
  have hlab : (lbl ++ (']' :: '(' :: (url ++ ')' :: rest))).takeWhile
      (fun c => !(c = '[' || c = ']')) = lbl := by
    apply takeWhile_append_sat_stop
    · intro c hc
      rw [List.all_eq_true] at hall
      exact hall c hc
    · intro c hc
      simp only [List.head?_cons, Option.some.injEq] at hc
      rw [← hc]
      decide
  rw [hlab]
  have hemp : lbl.isEmpty = false := by
    cases lbl with
    | nil => exact absurd rfl hne
    | cons _ _ => rfl
  rw [if_neg (by rw [hemp]; exact Bool.false_ne_true)]
  have hdr : (lbl ++ (']' :: '(' :: (url ++ ')' :: rest))).drop lbl.length
      = ']' :: '(' :: (url ++ ')' :: rest) := List.drop_left lbl _
  rw [hdr]
  rw [show (']' :: '(' :: (url ++ ')' :: rest)).take 2 = [']', '('] from rfl, if_pos rfl]
  simp only [List.drop_succ_cons, List.drop_zero]
  have hbody : linkBody (url ++ ')' :: rest) = (url, ')' :: rest) := by
    show linkBodyF (url ++ ')' :: rest).length (url ++ ')' :: rest) = (url, ')' :: rest)
    rw [hflat]
    apply linkBodyF_items _ items (')' :: rest) hitems rfl
    rw [← hflat]
    simp only [List.length_append, List.length_cons]
    omega
  rw [hbody]
  rw [show ((url, ')' :: rest).2.head?) = some ')' from rfl, if_pos rfl]

theorem getLinksF_sound :
    ∀ (fuel : Nat) (md s : List Char) (pos : Nat), s = md.drop pos →
      ∀ lbl url p, (lbl, url, p) ∈ getLinksF fuel s pos →
        1 ≤ p ∧ occAt ('[' :: lbl ++ ']' :: '(' :: url ++ [')']) md (p - 1) = true ∧
        lbl ≠ [] ∧ (∀ c ∈ lbl, ¬(c = '[' ∨ c = ']')) ∧ urlOk url := by
  intro fuel
  induction fuel with
  | zero =>
    intro md s pos hs lbl url p hmem
    simp [getLinksF] at hmem
  | succ n ih =>
    intro md s pos hs lbl url p hmem
    cases s with
    | nil => simp [getLinksF] at hmem
    | cons c rest =>
      unfold getLinksF at hmem
      cases htl : tryLink (c :: rest) with
      | none =>
        rw [htl] at hmem
        have hrest : rest = md.drop (pos + 1) := by
          rw [← List.tail_drop, ← hs]
          rfl
        exact ih md rest (pos + 1) hrest lbl url p hmem
      | some res =>
        rw [htl] at hmem
        obtain ⟨lbl0, url0, len0⟩ := res
        simp only [List.mem_cons] at hmem
        rcases hmem with heq | hmem
        · simp only [Prod.mk.injEq] at heq
          obtain ⟨rfl, rfl, rfl⟩ := heq
          obtain ⟨htake, hlen, hne, hmemc, hurl⟩ := tryLink_spec htl
          refine ⟨by omega, ?_, hne, hmemc, hurl⟩
          have hp0 : pos + 1 - 1 = pos := by omega
          rw [hp0]
          unfold occAt
          rw [← hs, ← htake]
          exact List.isPrefixOf_iff_prefix.mpr (List.take_prefix len0 (c :: rest))
        · apply ih md ((c :: rest).drop len0) (pos + len0) ?_ lbl url p hmem
          rw [hs, List.drop_drop]

/-- Every tuple the scan starting at `pos` yields records an offset
strictly beyond `pos`. -/
theorem getLinksF_pos_lb : ∀ (fuel : Nat) (s : List Char) (pos : Nat)
    (e : List Char × List Char × Nat), e ∈ getLinksF fuel s pos → pos + 1 ≤ e.2.2 := by
  intro fuel
  induction fuel with
  | zero => intro s pos e h; simp [getLinksF] at h
  | succ n ih =>
    intro s pos e h
    cases s with
    | nil => simp [getLinksF] at h
    | cons c rest =>
      unfold getLinksF at h
      cases htl : tryLink (c :: rest) with
      | none =>
        rw [htl] at h
        have := ih rest (pos + 1) e h
        omega
      | some r =>
        rw [htl] at h
        obtain ⟨l0, u0, L0⟩ := r
        rcases List.mem_cons.mp h with rfl | h
        · exact le_refl _
        · have := ih _ (pos + L0) e h
          omega

/-- The scan yields its tuples in strictly increasing offset order. -/
theorem getLinksF_sorted : ∀ (fuel : Nat) (s : List Char) (pos : Nat),
    List.Pairwise (fun a b => a.2.2 < b.2.2) (getLinksF fuel s pos) := by
  intro fuel
  induction fuel with
  | zero => intro s pos; simp [getLinksF]
  | succ n ih =>
    intro s pos
    cases s with
    | nil =>
      show List.Pairwise _ (getLinksF (n + 1) [] pos)
      unfold getLinksF
      exact List.Pairwise.nil
    | cons c rest =>
      show List.Pairwise _ (getLinksF (n + 1) (c :: rest) pos)
      unfold getLinksF
      cases htl : tryLink (c :: rest) with
      | none =>
        exact ih rest (pos + 1)
      | some r =>
        obtain ⟨l0, u0, L0⟩ := r
        show List.Pairwise _ ((l0, u0, pos + 1) :: getLinksF n ((c :: rest).drop L0) (pos + L0))
        rw [List.pairwise_cons]
        refine ⟨?_, ih _ (pos + L0)⟩
        intro b hb
        obtain ⟨_, hlen0, _, _, _⟩ := tryLink_spec htl
        have := getLinksF_pos_lb n _ (pos + L0) b hb
        show pos + 1 < b.2.2
        omega

/-- Completeness of the scan: a grammatical link occurrence at offset
`p ≥ pos` is either yielded at exactly `p`, or overlaps an earlier
yielded match (`finditer` consumes non-overlapping matches left to
right). -/
theorem getLinksF_complete :
    ∀ (fuel : Nat) (md s : List Char) (pos : Nat), s = md.drop pos → s.length ≤ fuel →
      ∀ p lbl url, pos ≤ p →
        occAt ('[' :: lbl ++ ']' :: '(' :: url ++ [')']) md p = true →
        lbl ≠ [] → lbl.all (fun c => !(c = '[' || c = ']')) = true → urlOk url →
        ((lbl, url, p + 1) ∈ getLinksF fuel s pos ∨
         ∃ lbl' url' q, q < p ∧ p < q + lbl'.length + url'.length + 4 ∧
           occAt ('[' :: lbl' ++ ']' :: '(' :: url' ++ [')']) md q = true ∧
           (lbl', url', q + 1) ∈ getLinksF fuel s pos) := by
  intro fuel
  induction fuel with
  | zero =>
    intro md s pos hs hlen p lbl url hpp hocc _ _ _
    exfalso
    have h1 := occAt_len (by simp) hocc
    have h2 : md.length - pos ≤ 0 := by
      have h3 := congrArg List.length hs
      rw [List.length_drop] at h3
      omega
    have h4 : 0 < ('[' :: lbl ++ ']' :: '(' :: url ++ [')']).length := by simp
    omega
  | succ n ih =>
    intro md s pos hs hlen p lbl url hpp hocc hne hall hu
    have hpat : ∀ t' : List Char, ('[' :: lbl ++ ']' :: '(' :: url ++ [')']) ++ t'
        = '[' :: lbl ++ ']' :: '(' :: url ++ ')' :: t' := by
      intro t'
      simp [List.cons_append, List.append_assoc]
    cases s with
    | nil =>
      exfalso
      have h1 := occAt_len (by simp) hocc
      have h2 : md.length - pos ≤ 0 := by
        have h3 := congrArg List.length hs
        rw [List.length_drop] at h3
        simp at h3
        omega
      have h4 : 0 < ('[' :: lbl ++ ']' :: '(' :: url ++ [')']).length := by simp
      omega
    | cons c rest =>
      cases htl : tryLink (c :: rest) with
      | none =>
        have hunf : getLinksF (n + 1) (c :: rest) pos = getLinksF n rest (pos + 1) := by
          have hdef : getLinksF (n + 1) (c :: rest) pos
              = (match tryLink (c :: rest) with
                 | some (label, url, len) =>
                   (label, url, pos + 1) :: getLinksF n ((c :: rest).drop len) (pos + len)
                 | none => getLinksF n rest (pos + 1)) := rfl
          rw [hdef, htl]
        by_cases hp : p = pos
        · exfalso
          obtain ⟨t', ht'⟩ := occAt_iff.mp hocc
          have hcr : c :: rest = '[' :: lbl ++ ']' :: '(' :: url ++ ')' :: t' := by
            rw [hs, ← hp, ← ht', hpat]
          have hcompl := @tryLink_complete lbl url t' hne hall hu
          rw [← hcr, htl] at hcompl
          cases hcompl
        · have hrest : rest = md.drop (pos + 1) := by
            rw [← List.tail_drop, ← hs]
            rfl
          have hlen' : rest.length ≤ n := by
            simp only [List.length_cons] at hlen
            omega
          rcases ih md rest (pos + 1) hrest hlen' p lbl url (by omega) hocc hne hall hu
            with h | ⟨l', u', q, h1, h2, h3, h4⟩
          · left
            rw [hunf]
            exact h
          · right
            exact ⟨l', u', q, h1, h2, h3, by rw [hunf]; exact h4⟩
      | some r =>
        obtain ⟨l0, u0, L0⟩ := r
        obtain ⟨htake, hlen0, hne0, hall0, hurl0⟩ := tryLink_spec htl
        have hunf : getLinksF (n + 1) (c :: rest) pos
            = (l0, u0, pos + 1) :: getLinksF n ((c :: rest).drop L0) (pos + L0) := by
          have hdef : getLinksF (n + 1) (c :: rest) pos
              = (match tryLink (c :: rest) with
                 | some (label, url, len) =>
                   (label, url, pos + 1) :: getLinksF n ((c :: rest).drop len) (pos + len)
                 | none => getLinksF n rest (pos + 1)) := rfl
          rw [hdef, htl]
        have hocc0 : occAt ('[' :: l0 ++ ']' :: '(' :: u0 ++ [')']) md pos = true := by
          unfold occAt
          rw [← hs, ← htake]
          exact List.isPrefixOf_iff_prefix.mpr (List.take_prefix L0 (c :: rest))
        by_cases hp : p = pos
        · left
          obtain ⟨t', ht'⟩ := occAt_iff.mp hocc
          have hcr : c :: rest = '[' :: lbl ++ ']' :: '(' :: url ++ ')' :: t' := by
            rw [hs, ← hp, ← ht', hpat]
          have hcompl := @tryLink_complete lbl url t' hne hall hu
          rw [← hcr, htl] at hcompl
          have hinj := Option.some.inj hcompl
          have hl : l0 = lbl := congrArg Prod.fst hinj
          have hu2 : u0 = url := congrArg Prod.fst (congrArg Prod.snd hinj)
          rw [hunf, hp, ← hl, ← hu2]
          exact List.mem_cons_self _ _
        · by_cases hcov : p < pos + L0
          · right
            refine ⟨l0, u0, pos, by omega, by omega, hocc0, ?_⟩
            rw [hunf]
            exact List.mem_cons_self _ _
          · have hs' : (c :: rest).drop L0 = md.drop (pos + L0) := by
              rw [hs, List.drop_drop]
            have hlen' : ((c :: rest).drop L0).length ≤ n := by
              simp only [List.length_drop, List.length_cons] at *
              omega
            rcases ih md ((c :: rest).drop L0) (pos + L0) hs' hlen' p lbl url (by omega)
              hocc hne hall hu with h | ⟨l', u', q, h1, h2, h3, h4⟩
            · left
              rw [hunf]
              exact List.mem_cons_of_mem _ h
            · right
              exact ⟨l', u', q, h1, h2, h3, by rw [hunf]; exact List.mem_cons_of_mem _ h4⟩

theorem lineCol_foldl : ∀ l : List Char,
    l.foldl (fun lc ch => if isNl ch then (lc.1 + 1, 1) else (lc.1, lc.2 + 1)) (1, 1)
      = (1 + l.countP isNl, 1 + (l.reverse.takeWhile (fun c => !isNl c)).length) := by
  intro l
  induction l using List.reverseRecOn with
  | nil => rfl
  | append_singleton xs x ih =>
    rw [List.foldl_append, ih]
    simp only [List.foldl_cons, List.foldl_nil]
    rw [List.countP_append, List.reverse_append]
    show (if isNl x then _ else _)
      = (1 + (xs.countP isNl + List.countP isNl [x]),
         1 + (([x].reverse ++ xs.reverse).takeWhile (fun c => !isNl c)).length)
    by_cases hx : isNl x = true
    · rw [if_pos hx]
      have hc1 : List.countP isNl [x] = 1 := by
        simp [List.countP_cons, hx]
      have ht1 : (([x].reverse ++ xs.reverse).takeWhile (fun c => !isNl c)) = [] := by
        show ((x :: xs.reverse).takeWhile (fun c => !isNl c)) = []
        rw [List.takeWhile_cons]
        simp [hx]
      rw [hc1, ht1]
      simp only [Prod.mk.injEq]
      constructor
      · omega
      · rfl
    · have hx' : isNl x = false := Bool.eq_false_iff.mpr hx
      rw [if_neg hx]
      have hc0 : List.countP isNl [x] = 0 := by
        simp [List.countP_cons, hx']
      have ht0 : (([x].reverse ++ xs.reverse).takeWhile (fun c => !isNl c))
          = x :: xs.reverse.takeWhile (fun c => !isNl c) := by
        show ((x :: xs.reverse).takeWhile (fun c => !isNl c)) = _
        rw [List.takeWhile_cons]
        simp [hx']
      rw [hc0, ht0]
      simp only [Prod.mk.injEq, List.length_cons]
      constructor
      · omega
      · omega

/-- C9: the link extractor yields one tuple per grammatical link
occurrence, in left-to-right scan order.  (1) The multi-parens scenario:
the extracted target is the full URL including both parenthetical
groups, reported at line 1, column 2.  (2) Soundness: every yielded
tuple is a grammatical occurrence — the text `[label](url)` really
occurs at the reported offset, the label is nonempty and bracket-free,
the URL body satisfies the claim's grammar, and the line/column is
`line_col` of the label start.  (3) Completeness: every grammatical
occurrence is yielded, at `line_col` of its label start, unless it
overlaps an earlier (smaller-offset) yielded match — which is exactly
what `finditer`'s non-overlapping left-to-right scan skips.  (4) Scan
order: `get_links` is the image, in order, of the underlying scan, whose
recorded offsets are strictly increasing.  (5) `line_col` returns the
1-based line and column obtained by counting both `\r` and `\n` as line
separators among the characters before the position. -/
theorem c9_theorem :
    get_links "[multi parens??](https://google.com/co(mp)uting(iscool))".toList
      = [("multi parens??".toList,
          "https://google.com/co(mp)uting(iscool)".toList, 1, 2)] ∧
    (∀ md lbl url ln col, (lbl, url, ln, col) ∈ get_links md →
      ∃ p, 1 ≤ p ∧ occAt ('[' :: lbl ++ ']' :: '(' :: url ++ [')']) md (p - 1) = true ∧
        lbl ≠ [] ∧ (∀ c ∈ lbl, ¬(c = '[' ∨ c = ']')) ∧ urlOk url ∧
        (ln, col) = lineCol md p) ∧
    (∀ md p lbl url, occAt ('[' :: lbl ++ ']' :: '(' :: url ++ [')']) md p = true →
      lbl ≠ [] → lbl.all (fun c => !(c = '[' || c = ']')) = true → urlOk url →
      ((lbl, url, lineCol md (p + 1)) ∈ get_links md ∨
       ∃ lbl' url' q, q < p ∧ p < q + lbl'.length + url'.length + 4 ∧
         occAt ('[' :: lbl' ++ ']' :: '(' :: url' ++ [')']) md q = true ∧
         (lbl', url', lineCol md (q + 1)) ∈ get_links md)) ∧
    (∀ md, get_links md
        = (getLinksF md.length md 0).map (fun e => (e.1, e.2.1, lineCol md e.2.2)) ∧
      List.Pairwise (fun a b => a.2.2 < b.2.2) (getLinksF md.length md 0)) ∧
    (∀ md pos, lineCol md pos
      = (1 + (md.take pos).countP isNl,
         1 + ((md.take pos).reverse.takeWhile (fun c => !isNl c)).length)) := by
  refine ⟨by decide, ?_, ?_, ?_, fun md pos => lineCol_foldl (md.take pos)⟩
  · intro md lbl url ln col hmem
    unfold get_links at hmem
    rw [List.mem_map] at hmem
    obtain ⟨⟨lbl0, url0, p0⟩, hmem0, heq⟩ := hmem
    simp only [Prod.mk.injEq] at heq
    obtain ⟨h1, h2, h34⟩ := heq
    have hsound := getLinksF_sound md.length md md 0 (List.drop_zero md).symm lbl0 url0 p0 hmem0
    rw [h1, h2] at hsound
    exact ⟨p0, hsound.1, hsound.2.1, hsound.2.2.1, hsound.2.2.2.1,
      hsound.2.2.2.2, h34.symm⟩
  · intro md p lbl url hocc hne hall hu
    have hc := getLinksF_complete md.length md md 0 (List.drop_zero md).symm (le_refl _)
      p lbl url (Nat.zero_le p) hocc hne hall hu
    rcases hc with h | ⟨l', u', q, h1, h2, h3, h4⟩
    · left
      exact List.mem_map_of_mem _ h
    · right
      exact ⟨l', u', q, h1, h2, h3, List.mem_map_of_mem _ h4⟩
  · intro md
    exact ⟨rfl, getLinksF_sorted md.length md 0⟩

/-- Witness for C9: the soundness conjunct applied at the multi-parens
scenario document. -/
theorem c9_witness :
    ("multi parens??".toList, "https://google.com/co(mp)uting(iscool)".toList, 1, 2)
        ∈ get_links "[multi parens??](https://google.com/co(mp)uting(iscool))".toList ∧
    ∃ p, 1 ≤ p ∧
      occAt ('[' :: "multi parens??".toList ++ ']' :: '('
          :: "https://google.com/co(mp)uting(iscool)".toList ++ [')'])
        "[multi parens??](https://google.com/co(mp)uting(iscool))".toList (p - 1) = true ∧
      "multi parens??".toList ≠ [] ∧
      (∀ c ∈ "multi parens??".toList, ¬(c = '[' ∨ c = ']')) ∧
      urlOk "https://google.com/co(mp)uting(iscool)".toList ∧
      ((1 : Nat), (2 : Nat))
        = lineCol "[multi parens??](https://google.com/co(mp)uting(iscool))".toList p :=
  ⟨by decide,
    c9_theorem.2.1 "[multi parens??](https://google.com/co(mp)uting(iscool))".toList
      "multi parens??".toList "https://google.com/co(mp)uting(iscool)".toList 1 2
      (by decide)⟩

/-! ## Claim C1: helper lemmas -/

theorem prefix_of_append_of_length_le {u v w : List Char}
    (h : u <+: v ++ w) (hl : u.length ≤ v.length) : u <+: v := by
  have h2 : u = (v ++ w).take u.length := List.prefix_iff_eq_take.mp h
  rw [List.take_append_of_le_length hl] at h2
  rw [h2]
  exact List.take_prefix _ _

theorem isPrefix_drop {u v : List Char} (h : u <+: v) (d : Nat) :
    u.drop d <+: v.drop d := by
  rw [List.prefix_iff_eq_take] at h
  rw [h, List.drop_take]
  exact List.take_prefix _ _

theorem startTag_no_border :
    ∀ d, d < startTag.length → 0 < d →
      (startTag.drop d).isPrefixOf startTag = false := by
  decide

theorem takeWhile_nil_of_head {p : Char → Bool} {l : List Char}
    (h : ∀ c, l.head? = some c → p c = false) : l.takeWhile p = [] := by
  cases l with
  | nil => rfl
  | cons x xs =>
    rw [List.takeWhile_cons, h x rfl]
    rfl

theorem getLast?_take {l : List Char} {n : Nat} (h0 : 0 < n) (hn : n ≤ l.length) :
    (l.take n).getLast? = l[n - 1]? := by
  have hlen : (l.take n).length = n := by
    rw [List.length_take]
    omega
  rw [List.getLast?_eq_getElem?, hlen, List.getElem?_take, if_pos (by omega)]

theorem nl_not_mem_endTag : '\n' ∉ endTag := by decide

theorem endTag_head : endTag[0]? = some '<' := by decide

/-- The non-greedy group of the second match: no end-delimiter occurrence
starts inside `"\n\n" ++ T ++ "\n\n"` when `T` itself contains none. -/
theorem endTag_min_in_mid (T B : List Char) (hE : firstOcc endTag T = none) :
    ∀ q, q < ('\n' :: '\n' :: (T ++ ['\n', '\n'])).length →
      occAt endTag (('\n' :: '\n' :: (T ++ ['\n', '\n'])) ++ (endTag ++ B)) q = false := by
  intro q hq
  set u := ('\n' :: '\n' :: (T ++ ['\n', '\n'])) ++ (endTag ++ B) with hu
  have hmidlen : ('\n' :: '\n' :: (T ++ ['\n', '\n'])).length = T.length + 4 := by
    simp [List.length_append]
  rw [hmidlen] at hq
  have hTpart : ∀ k, u[2 + k]? = (T ++ ('\n' :: '\n' :: (endTag ++ B)))[k]? := by
    intro k
    rw [hu]
    show (('\n' :: '\n' :: (T ++ ['\n', '\n'])) ++ (endTag ++ B))[2 + k]? = _
    rw [← List.getElem?_drop]
    congr 1
    show (T ++ ['\n', '\n']) ++ (endTag ++ B) = T ++ ('\n' :: '\n' :: (endTag ++ B))
    rw [List.append_assoc]
    rfl
  have hnl : ∀ pos, pos = 0 ∨ pos = 1 ∨ pos = T.length + 2 ∨ pos = T.length + 3 →
      u[pos]? = some '\n' := by
    intro pos hpos
    rcases hpos with h | h | h | h
    · rw [h, hu]; simp
    · rw [h, hu]; simp
    · have : pos = 2 + T.length := by omega
      rw [this, hTpart]
      rw [List.getElem?_append_right (le_refl _)]
      simp
    · have : pos = 2 + (T.length + 1) := by omega
      rw [this, hTpart]
      rw [List.getElem?_append_right (by omega)]
      have : T.length + 1 - T.length = 1 := by omega
      rw [this]
      rfl
  by_cases hin : 2 ≤ q ∧ q + endTag.length ≤ T.length + 2
  · -- the occurrence would sit entirely inside T
    rw [Bool.eq_false_iff]
    intro hocc
    have h1 : endTag <+: u.drop q := occAt_iff.mp hocc
    have hdrop2 : u.drop 2 = T ++ ('\n' :: '\n' :: (endTag ++ B)) := by
      rw [hu]
      show (T ++ ['\n', '\n']) ++ (endTag ++ B) = _
      rw [List.append_assoc]
      rfl
    have h2 : u.drop q = (T ++ ('\n' :: '\n' :: (endTag ++ B))).drop (q - 2) := by
      rw [← hdrop2, List.drop_drop]
      congr 1
      omega
    rw [h2] at h1
    have h3 : (T ++ ('\n' :: '\n' :: (endTag ++ B))).drop (q - 2)
        = T.drop (q - 2) ++ ('\n' :: '\n' :: (endTag ++ B)) :=
      List.drop_append_of_le_length (by omega)
    rw [h3] at h1
    have h4 : endTag <+: T.drop (q - 2) :=
      prefix_of_append_of_length_le h1 (by rw [List.length_drop]; omega)
    have h5 : occAt endTag T (q - 2) = true := occAt_iff.mpr h4
    rw [firstOcc_none endTag_ne_nil hE (q - 2)] at h5
    cases h5
  · -- the occurrence window covers one of the four newline characters
    rw [Bool.eq_false_iff]
    intro hocc
    have hget := occAt_get hocc
    have hor : (q = 0 ∨ q = 1 ∨ q = T.length + 2 ∨ q = T.length + 3) ∨
        (2 ≤ q ∧ q ≤ T.length + 1 ∧ T.length + 2 < q + endTag.length) := by
      have hel : endTag.length = 15 := by decide
      omega
    rcases hor with hq4 | ⟨hq2, hqT, hcov⟩
    · -- the first character of the occurrence is a newline, but endTag starts with <
      have h1 := hget 0 '<' endTag_head
      rw [Nat.add_zero] at h1
      rw [hnl q hq4] at h1
      cases h1
    · -- position T.length + 2 lies inside the window and holds a newline
      have hk : T.length + 2 - q < endTag.length := by omega
      have he : endTag[T.length + 2 - q]? = some (endTag[T.length + 2 - q]) :=
        List.getElem?_eq_getElem hk
      have h1 := hget (T.length + 2 - q) _ he
      have hqk : q + (T.length + 2 - q) = T.length + 2 := by omega
      rw [hqk, hnl (T.length + 2) (by omega)] at h1
      have hmem : endTag[T.length + 2 - q] ∈ endTag := List.getElem_mem hk
      rw [← Option.some.inj h1] at hmem
      exact nl_not_mem_endTag hmem

theorem findMatch_eq {s : List Char} {i d : Nat}
    (h1 : firstOcc startTag s = some i)
    (h2 : firstOcc endTag (s.drop (i + startTag.length)) = some d) :
    findMatch s = some ⟨i - backRun s i, i, i + startTag.length + d,
      i + startTag.length + d + endTag.length
        + fwdRun s (i + startTag.length + d + endTag.length)⟩ := by
  unfold findMatch
  rw [h1]
  simp only []
  rw [h2]

/-- **C1** (amended). `modify_and_write` is not idempotent in general (see the
counterexample); it is idempotent on a successful output `out` whenever the
TOC recomputed from `out` equals the one computed from the input, that TOC
contains no end delimiter and no backslash. -/
theorem c1_theorem (md out : List Char)
    (hok : modify_and_write md = .ok out)
    (hb : (toc md).all (· ≠ '\\') = true)
    (htoc : toc out = toc md)
    (hE : firstOcc endTag (toc md) = none) :
    modify_and_write out = .ok out := by
  obtain ⟨m, hfm, hcnt, hout⟩ := mw_ok_decomp hb hok
  have hbd := findMatch_bounds hfm
  obtain ⟨i, d, hSmd0, _, hm⟩ := findMatch_cases hfm
  have hmi : m.i = i := by rw [hm]
  have hml : m.l = m.i - backRun md m.i := by rw [hm]
  have hmr : m.r = m.j + endTag.length + fwdRun md (m.j + endTag.length) := by rw [hm]
  have hSmd : firstOcc startTag md = some m.i := by rw [hmi]; exact hSmd0
  have hS17 : startTag.length = 17 := by decide
  have hE15 : endTag.length = 15 := by decide
  set T := toc md with hT
  set A := md.take m.l with hA
  set B := md.drop m.r with hB
  set mid := '\n' :: '\n' :: (T ++ ['\n', '\n']) with hmid
  have hAlen : A.length = m.l := by
    rw [hA, List.length_take]
    omega
  have hmk : mkTemplate T = startTag ++ (mid ++ endTag) := by
    show startTag ++ '\n' :: '\n' :: (T ++ '\n' :: '\n' :: endTag) = _
    rw [hmid]
    show _ = startTag ++ '\n' :: '\n' :: ((T ++ ['\n', '\n']) ++ endTag)
    rw [List.append_assoc]
    rfl
  have hout2 : out = A ++ (startTag ++ (mid ++ (endTag ++ B))) := by
    rw [hout, hmk]
    simp [List.append_assoc]
  have hdropa : out.drop A.length = startTag ++ (mid ++ (endTag ++ B)) := by
    rw [hout2]
    exact List.drop_left A _
  have htakea : out.take A.length = A := by
    rw [hout2]
    exact List.take_left A _
  have hout3 : out = (A ++ startTag) ++ (mid ++ (endTag ++ B)) := by
    rw [hout2, List.append_assoc]
  have hdropS : out.drop (A.length + startTag.length) = mid ++ (endTag ++ B) := by
    rw [hout3, ← List.length_append A startTag]
    exact List.drop_left _ _
  have hout4 : out = (((A ++ startTag) ++ mid) ++ endTag) ++ (B) := by
    rw [hout3]
    simp [List.append_assoc]
  have hlen4 : (((A ++ startTag) ++ mid) ++ endTag).length
      = A.length + startTag.length + mid.length + endTag.length := by
    simp [List.length_append]
    omega
  have hdropr : out.drop (A.length + startTag.length + mid.length + endTag.length) = B := by
    rw [hout4, ← hlen4]
    exact List.drop_left _ _
  -- (a) the first start-delimiter occurrence in `out` is at `A.length`
  have hfo1 : firstOcc startTag out = some A.length := by
    apply firstOcc_of_occ_min
    · exact occAt_iff.mpr (by rw [hdropa]; exact List.prefix_append _ _)
    · intro p hp
      rw [Bool.eq_false_iff]
      intro hocc
      have h1 : startTag <+: out.drop p := occAt_iff.mp hocc
      by_cases hcase : p + startTag.length ≤ A.length
      · -- fully inside the prefix `A`, hence an occurrence in `md` before `m.i`
        have h2 : out.drop p = A.drop p ++ (startTag ++ (mid ++ (endTag ++ B))) := by
          rw [hout2]
          exact List.drop_append_of_le_length (by omega)
        rw [h2] at h1
        have h3 : startTag <+: A.drop p :=
          prefix_of_append_of_length_le h1 (by rw [List.length_drop]; omega)
        have h4 : A.drop p <+: md.drop p := isPrefix_drop (List.take_prefix m.l md) p
        have h6 : occAt startTag md p = true := occAt_iff.mpr (h3.trans h4)
        have h7 := firstOcc_some_min hSmd p (by omega)
        rw [h6] at h7
        cases h7
      · -- straddling the boundary: a proper suffix of startTag would prefix it
        have h2 : startTag.drop (A.length - p) <+: (out.drop p).drop (A.length - p) :=
          isPrefix_drop h1 _
        have h3 : (out.drop p).drop (A.length - p) = out.drop A.length := by
          rw [List.drop_drop]
          congr 1
          omega
        rw [h3, hdropa] at h2
        have h5 : startTag.drop (A.length - p) <+: startTag :=
          prefix_of_append_of_length_le h2 (by rw [List.length_drop]; omega)
        rw [← List.isPrefixOf_iff_prefix] at h5
        have h6 := startTag_no_border (A.length - p) (by omega) (by omega)
        rw [h5] at h6
        cases h6
  -- (b) the first end-delimiter occurrence after the start tag is at `mid.length`
  have hfo2 : firstOcc endTag (out.drop (A.length + startTag.length)) = some mid.length := by
    rw [hdropS]
    apply firstOcc_of_occ_min
    · exact occAt_iff.mpr (by rw [List.drop_left mid _]; exact List.prefix_append _ _)
    · intro q hq
      exact endTag_min_in_mid T B hE q hq
  -- (c) no horizontal whitespace is absorbed on the left
  have hback : backRun out A.length = 0 := by
    show ((out.take A.length).reverse.takeWhile ht).length = 0
    rw [htakea]
    rw [takeWhile_nil_of_head]
    · rfl
    · intro c hc
      rw [List.head?_reverse] at hc
      by_cases hl0 : m.l = 0
      · rw [hA, hl0] at hc
        cases hc
      · rw [hA, getLast?_take (by omega) (by omega)] at hc
        have := @backRun_stop md m.i (by omega) (by omega) c
        rw [← hml] at this
        exact this hc
  -- (d) no horizontal whitespace is absorbed on the right
  have hfwd : fwdRun out (A.length + startTag.length + mid.length + endTag.length) = 0 := by
    show ((out.drop _).takeWhile ht).length = 0
    rw [hdropr]
    rw [takeWhile_nil_of_head]
    · rfl
    · intro c hc
      rw [hB, List.head?_drop] at hc
      apply @fwdRun_stop md (m.j + endTag.length) c
      rw [← hmr]
      exact hc
  -- assemble the unique match of `out`
  have hmatch0 := findMatch_eq hfo1 hfo2
  rw [hback, Nat.sub_zero, hfwd, Nat.add_zero] at hmatch0
  have hcB : countMatches B = 0 := by
    have h := countMatches_some hfm
    rw [hcnt, ← hB] at h
    omega
  have hcout : countMatches out = 1 := by
    have h1 := countMatches_some hmatch0
    have h2 : (TocMatch.mk A.length A.length (A.length + startTag.length + mid.length)
        (A.length + startTag.length + mid.length + endTag.length)).r
        = A.length + startTag.length + mid.length + endTag.length := rfl
    rw [h1]
    show countMatches (out.drop _) + 1 = 1
    rw [h2, hdropr, hcB]
  have hb' : (toc out).all (· ≠ '\\') = true := by rw [htoc]; exact hb
  have hsubn := @tocSubn_single ((mkTemplate (toc out)).map TItem.lit) _ _ hmatch0 hcout
  rw [expandT_map_lit] at hsubn
  have hsl : (TocMatch.mk A.length A.length (A.length + startTag.length + mid.length)
      (A.length + startTag.length + mid.length + endTag.length)).l = A.length := rfl
  have hsr : (TocMatch.mk A.length A.length (A.length + startTag.length + mid.length)
      (A.length + startTag.length + mid.length + endTag.length)).r
      = A.length + startTag.length + mid.length + endTag.length := rfl
  rw [hsl, hsr, htakea, hdropr, htoc] at hsubn
  have hfin : tocSubn ((mkTemplate (toc out)).map TItem.lit) out = (out, 1) := by
    rw [htoc, hsubn, ← hout]
  rw [modify_and_write_noBackslash hb', hfin]
  rfl

/-- **C3** counterexample: with exactly one delimiter-region match, the
output need not be the input with the matched span replaced by the TOC
template.  Here the rendered TOC contains `\1`, which `re.subn` treats as
a reference to the pattern's first group (the old region content `OLD`),
so the inserted text differs from the template. -/
theorem c3_counterexample :
    findMatch "# a\\1 b\n<!---toc start-->OLD<!---toc end-->".toList
        = some ⟨8, 8, 28, 43⟩ ∧
    countMatches "# a\\1 b\n<!---toc start-->OLD<!---toc end-->".toList = 1 ∧
    modify_and_write "# a\\1 b\n<!---toc start-->OLD<!---toc end-->".toList
        = .ok "# a\\1 b\n<!---toc start-->\n\n* [aOLD b](#a1-b)\n\n<!---toc end-->".toList ∧
    "# a\\1 b\n<!---toc start-->\n\n* [aOLD b](#a1-b)\n\n<!---toc end-->".toList
        ≠ "# a\\1 b\n<!---toc start-->OLD<!---toc end-->".toList.take 8
          ++ mkTemplate (toc "# a\\1 b\n<!---toc start-->OLD<!---toc end-->".toList)
          ++ "# a\\1 b\n<!---toc start-->OLD<!---toc end-->".toList.drop 43 :=
  ⟨by decide, by decide, by decide, by decide⟩

/-- **C1** counterexample: running the patch twice is not idempotent.  The
first run replaces the region between the delimiters — including the header
line `# x` that the TOC was computed from — so the second run recomputes an
empty TOC and produces a different document. -/
theorem c1_counterexample :
    modify_and_write "<!---toc start-->\n# x\n<!---toc end-->".toList
        = .ok "<!---toc start-->\n\n* [x](#x)\n\n<!---toc end-->".toList ∧
    modify_and_write "<!---toc start-->\n\n* [x](#x)\n\n<!---toc end-->".toList
        = .ok "<!---toc start-->\n\n\n\n<!---toc end-->".toList ∧
    "<!---toc start-->\n\n* [x](#x)\n\n<!---toc end-->".toList
        ≠ "<!---toc start-->\n\n\n\n<!---toc end-->".toList :=
  ⟨by decide, by decide, by decide⟩

/-- Witness for `c1_theorem` at a document whose headers lie outside the
delimited region. -/
theorem c1_witness :
    modify_and_write "# h\n<!---toc start-->\n\n* [h](#h)\n\n<!---toc end-->".toList
      = .ok "# h\n<!---toc start-->\n\n* [h](#h)\n\n<!---toc end-->".toList :=
  c1_theorem ("# h\n<!---toc start-->\n<!---toc end-->".toList)
    "# h\n<!---toc start-->\n\n* [h](#h)\n\n<!---toc end-->".toList
    (by decide) (by decide) (by decide) (by decide)

end Mdtoc
